import Mathlib

/-!
Verification of the ModelSpec container scripts: a shallow embedding of the
framing, metadata-namespace, hashing, thumbnail and display logic of the
three Python example scripts, with theorems settling the specified
properties against that embedding.

Byte sequences are modelled as `List Nat` (each element a byte value),
Python `str` values as Lean `String`, and Python `dict` objects as
association lists in insertion order.
-/

namespace ModelSpec

/-- Python `s.startswith(pre)`: the characters of `pre` lead those of `s`. -/
def startsWithStr (s pre : String) : Bool :=
  pre.data.isPrefixOf s.data

/-- Reserved-namespace test: Python `key.startswith("modelspec.")`. -/
def isReservedKey (key : String) : Bool :=
  startsWithStr key "modelspec."

/-- Display truncation from the read loops of both scripts:
`val[:max_len] + "..." if len(val) > max_len else val`. -/
def formatValue (val : String) (maxLen : Nat) : String :=
  if val.length > maxLen then val.take maxLen ++ "..." else val

/-- Per-key display limit from `example_read_only.py` line 34:
`max_len = 200 if key == "modelspec.thumbnail" or val.startswith("data:image/") else 800`. -/
def readOnlyMaxLen (key val : String) : Nat :=
  if key = "modelspec.thumbnail" ∨ startsWithStr val "data:image/" then 200 else 800

/-- Value as displayed by `example_read_only.py` line 35. -/
def readOnlyDisplayValue (key val : String) : String :=
  formatValue val (readOnlyMaxLen key val)

/-- Value as displayed by `example_no_reqs.py` line 79, which truncates every
reserved entry at 200 characters. -/
def noReqsDisplayValue (val : String) : String :=
  formatValue val 200

/-! Association-list model of Python dictionaries. -/

/-- Metadata map: a string-to-string dictionary in insertion order. -/
abbrev MetaMap := List (String × String)

/-- Python dictionary lookup `m[k]` / `m.get(k)` (first entry wins). -/
def lookupMeta (m : MetaMap) (k : String) : Option String :=
  match m with
  | [] => none
  | (k2, v) :: rest => if k2 = k then some v else lookupMeta rest k

/-- Replace the value of every entry at a key, keeping positions. -/
def setEntry : MetaMap → String → String → MetaMap
  | [], _, _ => []
  | (k2, w) :: rest, k, v =>
    if k2 = k then (k, v) :: setEntry rest k v else (k2, w) :: setEntry rest k v

/-- Python `m[k] = v`: overwrite in place if the key exists, else append. -/
def dictSet (m : MetaMap) (k v : String) : MetaMap :=
  if (lookupMeta m k).isSome then setEntry m k v else m ++ [(k, v)]

/-- Python `m.update(n)`: existing keys keep their position with the new
value, keys of `n` absent from `m` are appended in order. -/
def dictUpdate (m n : MetaMap) : MetaMap :=
  (m.map fun kv =>
    match lookupMeta n kv.1 with
    | some v => (kv.1, v)
    | none => kv) ++
  n.filter fun kv => (lookupMeta m kv.1).isNone

/-- The deletion loop of `example_no_reqs.py` lines 77-81: every key that
starts with `modelspec.` is removed from the original metadata. -/
def dropReserved (m : MetaMap) : MetaMap :=
  m.filter fun kv => ! isReservedKey kv.1

/-- Metadata replacement of `example_no_reqs.py` lines 77-84: delete the
reserved entries of the input, then `update` with the caller-supplied map. -/
def replaceReserved (orig newEntries : MetaMap) : MetaMap :=
  dictUpdate (dropReserved orig) newEntries

/-! Thumbnail embedding. -/

/-- Base64 alphabet in index order. -/
def base64Table : List Char :=
  "ABCDEFGHIJKLMNOPQRSTUVWXYZabcdefghijklmnopqrstuvwxyz0123456789+/".data

/-- Character for a 6-bit group. -/
def b64Char (n : Nat) : Char :=
  base64Table.getD n 'A'

/-- Standard base64 of a byte list, three bytes to four characters with
`=` padding, as produced by Python `base64.b64encode`. -/
def base64Chunks : List Nat → List Char
  | [] => []
  | [b1] => [b64Char (b1 / 4), b64Char (b1 % 4 * 16), '=', '=']
  | [b1, b2] => [b64Char (b1 / 4), b64Char (b1 % 4 * 16 + b2 / 16), b64Char (b2 % 16 * 4), '=']
  | b1 :: b2 :: b3 :: rest =>
      b64Char (b1 / 4) :: b64Char (b1 % 4 * 16 + b2 / 16) ::
        b64Char (b2 % 16 * 4 + b3 / 64) :: b64Char (b3 % 64) :: base64Chunks rest

/-- The `convert_to_b64` utility: base64 text of the PNG bytes. -/
def convert_to_b64 (pngBytes : List Nat) : String :=
  String.mk (base64Chunks pngBytes)

/-- Extension part of Python `os.path.splitext(p)[1]`: the suffix of the
basename from its last dot on, provided a character other than a dot
precedes that dot within the basename; the leading dot is kept. -/
def extFromBase (base : List Char) : String :=
  match base.reverse.dropWhile (fun c => c != '.') with
  | [] => ""
  | _ :: afterDot =>
      if afterDot.any (fun c => c != '.') then
        String.mk ('.' :: (base.reverse.takeWhile fun c => c != '.').reverse)
      else ""

def splitextExt (p : String) : String :=
  extFromBase ((p.data.reverse.takeWhile fun c => c != '/').reverse)

/-- Thumbnail data URI from `example_no_reqs.py` lines 44-46:
`f"data:image/(image_ext);base64,(convert_to_b64 img)"` with `image_ext`
taken from `os.path.splitext(image_path)[1]`. -/
def embedThumbnail (imagePath : String) (pngBytes : List Nat) : String :=
  "data:image/" ++ splitextExt imagePath ++ ";base64," ++ convert_to_b64 pngBytes

/-! JSON data model. The header of a container is a JSON object; per the
data model its values are tensor-descriptor objects (strings, integers,
arrays, objects) plus the flat string-to-string `__metadata__` map, so the
embedding covers null, booleans, integers, strings, arrays and objects;
JSON float forms do not occur in headers and are out of scope. -/

mutual
inductive JVal where
  | jnull
  | jbool (b : Bool)
  | jnum (n : Int)
  | jstr (s : String)
  | jarr (elems : JArr)
  | jobj (entries : JObj)
deriving DecidableEq
inductive JArr where
  | nil
  | cons (v : JVal) (rest : JArr)
deriving DecidableEq
inductive JObj where
  | nil
  | cons (k : String) (v : JVal) (rest : JObj)
deriving DecidableEq
end

/-- Opening brace character. -/
def lbraceC : Char := Char.ofNat 123

/-- Closing brace character. -/
def rbraceC : Char := Char.ofNat 125

/-- Lowercase hexadecimal digit for a value below 16. -/
def hexChar (n : Nat) : Char :=
  if n < 10 then Char.ofNat (48 + n) else Char.ofNat (87 + n)

/-- Four lowercase hexadecimal digits, most significant first. -/
def hex4 (n : Nat) : List Char :=
  [hexChar (n / 4096 % 16), hexChar (n / 256 % 16), hexChar (n / 16 % 16), hexChar (n % 16)]

/-- Decimal digit character. -/
def digitChar (n : Nat) : Char :=
  Char.ofNat (48 + n)

/-- Value of a decimal digit character. -/
def digitVal (c : Char) : Option Nat :=
  if 48 ≤ c.toNat ∧ c.toNat ≤ 57 then some (c.toNat - 48) else none

/-- Value of a hexadecimal digit character, either case. -/
def hexVal (c : Char) : Option Nat :=
  if 48 ≤ c.toNat ∧ c.toNat ≤ 57 then some (c.toNat - 48)
  else if 97 ≤ c.toNat ∧ c.toNat ≤ 102 then some (c.toNat - 87)
  else if 65 ≤ c.toNat ∧ c.toNat ≤ 70 then some (c.toNat - 55)
  else none

/-- Decimal digits of a natural number, most significant first. The fuel
argument makes the recursion structural; `fuel = n` always suffices. -/
def natDigitsAux : Nat → Nat → List Char
  | 0, n => [digitChar (n % 10)]
  | fuel + 1, n =>
    if n < 10 then [digitChar n] else natDigitsAux fuel (n / 10) ++ [digitChar (n % 10)]

/-- Decimal digits of a natural number. -/
def natDigits (n : Nat) : List Char :=
  natDigitsAux n n

/-- Serialized integer: decimal digits with a leading minus when negative,
as Python `json.dumps` renders an `int`. -/
def intDigits (n : Int) : List Char :=
  if n < 0 then '-' :: natDigits (-n).toNat else natDigits n.toNat

/-- One character escaped as `json.dumps` does with its default
`ensure_ascii=True`: printable ASCII other than the quote and backslash is
literal, the short escapes cover the quote, backslash and the five control
characters with dedicated forms, every other character becomes lowercase
`\uXXXX` escapes, with a surrogate pair above U+FFFF. -/
def escapeChar (c : Char) : List Char :=
  if c = '"' then ['\\', '"']
  else if c = '\\' then ['\\', '\\']
  else if c = Char.ofNat 8 then ['\\', 'b']
  else if c = Char.ofNat 9 then ['\\', 't']
  else if c = Char.ofNat 10 then ['\\', 'n']
  else if c = Char.ofNat 12 then ['\\', 'f']
  else if c = Char.ofNat 13 then ['\\', 'r']
  else if c.toNat < 32 then '\\' :: 'u' :: hex4 c.toNat
  else if c.toNat ≤ 126 then [c]
  else if c.toNat ≤ 65535 then '\\' :: 'u' :: hex4 c.toNat
  else
    '\\' :: 'u' :: hex4 (55296 + (c.toNat - 65536) / 1024) ++
      ('\\' :: 'u' :: hex4 (56320 + (c.toNat - 65536) % 1024))

/-- Escape applied to every character in order. -/
def escapeList : List Char → List Char
  | [] => []
  | c :: cs => escapeChar c ++ escapeList cs

/-- Serialized JSON string: quote, escaped characters, quote. -/
def serializeStr (s : String) : List Char :=
  '"' :: escapeList s.data ++ ['"']

/-! Serialization follows Python `json.dumps` with its default separators:
`", "` between items and `": "` after keys. -/

mutual
def serializeJ : JVal → List Char
  | .jnull => ['n', 'u', 'l', 'l']
  | .jbool true => ['t', 'r', 'u', 'e']
  | .jbool false => ['f', 'a', 'l', 's', 'e']
  | .jnum n => intDigits n
  | .jstr s => serializeStr s
  | .jarr es => '[' :: serializeA es ++ [']']
  | .jobj kvs => lbraceC :: serializeO kvs ++ [rbraceC]

def serializeA : JArr → List Char
  | .nil => []
  | .cons v .nil => serializeJ v
  | .cons v rest => serializeJ v ++ (',' :: ' ' :: serializeA rest)

def serializeO : JObj → List Char
  | .nil => []
  | .cons k v .nil => serializeStr k ++ (':' :: ' ' :: serializeJ v)
  | .cons k v rest =>
      serializeStr k ++ (':' :: ' ' :: serializeJ v) ++ (',' :: ' ' :: serializeO rest)
end

/-! Parsing follows Python `json.loads` on the same fragment: whitespace
between tokens, the three keyword literals, integers, strings with the
short and `\uXXXX` escapes (surrogate pairs combined), arrays and objects.
Lone surrogates are rejected since a Lean `Char` cannot carry them, and
float forms are out of scope as above. -/

/-- JSON whitespace. -/
def isWs (c : Char) : Bool :=
  c = ' ' ∨ c = Char.ofNat 9 ∨ c = Char.ofNat 10 ∨ c = Char.ofNat 13

/-- Skip leading whitespace. -/
def skipWs (l : List Char) : List Char :=
  l.dropWhile isWs

/-- Greedy run of decimal digits folded onto an accumulator; stops at the
first non-digit and returns it with the remaining input. -/
def parseNatAux : List Char → Nat → Nat × List Char
  | [], acc => (acc, [])
  | c :: rest, acc =>
    match digitVal c with
    | some d => parseNatAux rest (acc * 10 + d)
    | none => (acc, c :: rest)

/-- Combined value of four hexadecimal digit characters. -/
def hex4Val (c1 c2 c3 c4 : Char) : Option Nat :=
  match hexVal c1, hexVal c2, hexVal c3, hexVal c4 with
  | some a, some b, some c, some d => some (((a * 16 + b) * 16 + c) * 16 + d)
  | _, _, _, _ => none

/-- String body after the opening quote: collects characters in reverse
into `acc` until the closing quote, decoding escapes on the way. The fuel
makes the recursion structural; every step consumes at least one input
character, so the input length always suffices as fuel. -/
def parseStrBody : Nat → List Char → List Char → Option (String × List Char)
  | 0, _, _ => none
  | fuel + 1, l, acc =>
    match l with
    | [] => none
    | c :: rest =>
      if c = '"' then some (String.mk acc.reverse, rest)
      else if c = '\\' then
        match rest with
        | [] => none
        | e :: rest2 =>
          if e = 'u' then
            match rest2 with
            | c1 :: c2 :: c3 :: c4 :: rest3 =>
              (match hex4Val c1 c2 c3 c4 with
              | none => none
              | some n =>
                if 55296 ≤ n ∧ n ≤ 56319 then
                  match rest3 with
                  | b1 :: u2 :: d1 :: d2 :: d3 :: d4 :: rest4 =>
                    if b1 = '\\' ∧ u2 = 'u' then
                      match hex4Val d1 d2 d3 d4 with
                      | some m =>
                        if 56320 ≤ m ∧ m ≤ 57343 then
                          parseStrBody fuel rest4
                            (Char.ofNat (65536 + (n - 55296) * 1024 + (m - 56320)) :: acc)
                        else none
                      | none => none
                    else none
                  | _ => none
                else if 56320 ≤ n ∧ n ≤ 57343 then none
                else parseStrBody fuel rest3 (Char.ofNat n :: acc))
            | _ => none
          else if e = '"' then parseStrBody fuel rest2 ('"' :: acc)
          else if e = '\\' then parseStrBody fuel rest2 ('\\' :: acc)
          else if e = '/' then parseStrBody fuel rest2 ('/' :: acc)
          else if e = 'b' then parseStrBody fuel rest2 (Char.ofNat 8 :: acc)
          else if e = 'f' then parseStrBody fuel rest2 (Char.ofNat 12 :: acc)
          else if e = 'n' then parseStrBody fuel rest2 (Char.ofNat 10 :: acc)
          else if e = 'r' then parseStrBody fuel rest2 (Char.ofNat 13 :: acc)
          else if e = 't' then parseStrBody fuel rest2 (Char.ofNat 9 :: acc)
          else none
      else parseStrBody fuel rest (c :: acc)

mutual
def parseVal : Nat → List Char → Option (JVal × List Char)
  | 0, _ => none
  | fuel + 1, l =>
    match skipWs l with
    | [] => none
    | c :: rest =>
      if c = 'n' then
        match rest with
        | 'u' :: 'l' :: 'l' :: rest2 => some (.jnull, rest2)
        | _ => none
      else if c = 't' then
        match rest with
        | 'r' :: 'u' :: 'e' :: rest2 => some (.jbool true, rest2)
        | _ => none
      else if c = 'f' then
        match rest with
        | 'a' :: 'l' :: 's' :: 'e' :: rest2 => some (.jbool false, rest2)
        | _ => none
      else if c = '"' then
        match parseStrBody rest.length rest [] with
        | some (s, rest2) => some (.jstr s, rest2)
        | none => none
      else if c = '-' then
        match rest with
        | [] => none
        | c2 :: rest2 =>
          match digitVal c2 with
          | some _ =>
            (match parseNatAux (c2 :: rest2) 0 with
            | (n, rest3) => some (.jnum (-(n : Int)), rest3))
          | none => none
      else if c = '[' then
        match skipWs rest with
        | [] => none
        | c2 :: rest2 =>
          if c2 = ']' then some (.jarr .nil, rest2)
          else
            match parseVal fuel rest with
            | some (v, rest3) =>
              (match parseArrRest fuel rest3 with
              | some (vs, rest4) => some (.jarr (.cons v vs), rest4)
              | none => none)
            | none => none
      else if c = lbraceC then
        match skipWs rest with
        | [] => none
        | c2 :: rest2 =>
          if c2 = rbraceC then some (.jobj .nil, rest2)
          else
            match parseMembers fuel rest with
            | some (kvs, rest3) => some (.jobj kvs, rest3)
            | none => none
      else
        match digitVal c with
        | some _ =>
          (match parseNatAux (c :: rest) 0 with
          | (n, rest2) => some (.jnum (n : Int), rest2))
        | none => none

def parseArrRest : Nat → List Char → Option (JArr × List Char)
  | 0, _ => none
  | fuel + 1, l =>
    match skipWs l with
    | [] => none
    | c :: rest =>
      if c = ',' then
        match parseVal fuel rest with
        | some (v, rest2) =>
          (match parseArrRest fuel rest2 with
          | some (vs, rest3) => some (.cons v vs, rest3)
          | none => none)
        | none => none
      else if c = ']' then some (.nil, rest)
      else none

def parseMembers : Nat → List Char → Option (JObj × List Char)
  | 0, _ => none
  | fuel + 1, l =>
    match skipWs l with
    | [] => none
    | c :: rest =>
      if c = '"' then
        match parseStrBody rest.length rest [] with
        | none => none
        | some (k, rest2) =>
          match skipWs rest2 with
          | [] => none
          | c2 :: rest3 =>
            if c2 = ':' then
              match parseVal fuel rest3 with
              | none => none
              | some (v, rest4) =>
                match skipWs rest4 with
                | [] => none
                | c3 :: rest5 =>
                  if c3 = ',' then
                    match parseMembers fuel rest5 with
                    | some (kvs, rest6) => some (.cons k v kvs, rest6)
                    | none => none
                  else if c3 = rbraceC then some (.cons k v .nil, rest5)
                  else none
            else none
      else none
end

/-- Python `json.loads`: parse one value, allow trailing whitespace only.
The fuel `text.length + 1` always suffices because every nesting level of a
value consumes at least one character of input. -/
def jsonLoads (text : List Char) : Option JVal :=
  match parseVal (text.length + 1) text with
  | some (v, rest) => if skipWs rest = [] then some v else none
  | none => none

/-! Fuel accounting for the parser: `sizeJ v` bounds the fuel `parseVal`
needs on the serialization of `v`, and is itself bounded by the
serialization length, so the `text.length + 1` fuel of `jsonLoads` always
suffices. -/

mutual
def sizeJ : JVal → Nat
  | .jnull | .jbool _ | .jnum _ | .jstr _ => 1
  | .jarr es => 1 + sizeA es
  | .jobj kvs => 1 + sizeO kvs

def sizeA : JArr → Nat
  | .nil => 1
  | .cons v rest => 1 + max (sizeJ v) (sizeA rest)

def sizeO : JObj → Nat
  | .nil => 1
  | .cons _ v rest => 1 + max (sizeJ v) (sizeO rest)
end

/-- Everything an array contributes after its first element: the closing
bracket, or a comma-space, the next element and the rest. -/
def serializeATail : JArr → List Char
  | .nil => [']']
  | .cons v rest => ',' :: ' ' :: (serializeJ v ++ serializeATail rest)

/-- Everything an object contributes after its first member. -/
def serializeOTail : JObj → List Char
  | .nil => [rbraceC]
  | .cons k v rest =>
      ',' :: ' ' :: (serializeStr k ++ ':' :: ' ' :: (serializeJ v ++ serializeOTail rest))

/-- Whether a character list does not begin with a decimal digit, the
side condition under which a serialized number followed by that list
parses back unchanged. -/
def noDigitHead : List Char → Bool
  | [] => true
  | c :: _ => (digitVal c).isNone

/-! SHA-256 over byte lists, modelling `hashlib.sha256` (FIPS 180-4).
Words are naturals reduced modulo `2 ^ 32`. -/

/-- Word modulus. -/
def w32 : Nat := 4294967296

/-- Addition modulo `2 ^ 32`. -/
def add32 (a b : Nat) : Nat := (a + b) % w32

/-- Right rotation of a 32-bit word. -/
def rotr32 (n x : Nat) : Nat := ((x >>> n) ||| (x <<< (32 - n))) % w32

/-- Bitwise complement of a 32-bit word. -/
def not32 (x : Nat) : Nat := x ^^^ 4294967295

/-- Big sigma-0 round function. -/
def bigS0 (x : Nat) : Nat := rotr32 2 x ^^^ rotr32 13 x ^^^ rotr32 22 x

/-- Big sigma-1 round function. -/
def bigS1 (x : Nat) : Nat := rotr32 6 x ^^^ rotr32 11 x ^^^ rotr32 25 x

/-- Small sigma-0 schedule function. -/
def smallS0 (x : Nat) : Nat := rotr32 7 x ^^^ rotr32 18 x ^^^ (x >>> 3)

/-- Small sigma-1 schedule function. -/
def smallS1 (x : Nat) : Nat := rotr32 17 x ^^^ rotr32 19 x ^^^ (x >>> 10)

/-- Choice function. -/
def chF (x y z : Nat) : Nat := (x &&& y) ^^^ (not32 x &&& z)

/-- Majority function. -/
def majF (x y z : Nat) : Nat := (x &&& y) ^^^ ((x ^^^ y) &&& z)

/-- Round constants. -/
def K256 : List Nat :=
  [1116352408, 1899447441, 3049323471, 3921009573, 961987163, 1508970993,
   2453635748, 2870763221, 3624381080, 310598401, 607225278, 1426881987,
   1925078388, 2162078206, 2614888103, 3248222580, 3835390401, 4022224774,
   264347078, 604807628, 770255983, 1249150122, 1555081692, 1996064986,
   2554220882, 2821834349, 2952996808, 3210313671, 3336571891, 3584528711,
   113926993, 338241895, 666307205, 773529912, 1294757372, 1396182291,
   1695183700, 1986661051, 2177026350, 2456956037, 2730485921, 2820302411,
   3259730800, 3345764771, 3516065817, 3600352804, 4094571909, 275423344,
   430227734, 506948616, 659060556, 883997877, 958139571, 1322822218,
   1537002063, 1747873779, 1955562222, 2024104815, 2227730452, 2361852424,
   2428436474, 2756734187, 3204031479, 3329325298]

/-- Big-endian bytes of a 64-bit length. -/
def beBytes8 (n : Nat) : List Nat :=
  [n / 72057594037927936 % 256, n / 281474976710656 % 256,
   n / 1099511627776 % 256, n / 4294967296 % 256,
   n / 16777216 % 256, n / 65536 % 256, n / 256 % 256, n % 256]

/-- Big-endian bytes of one 32-bit word. -/
def beBytes4 (n : Nat) : List Nat :=
  [n / 16777216 % 256, n / 65536 % 256, n / 256 % 256, n % 256]

/-- Merkle-Damgard padding: a `0x80` byte, zeros to 56 modulo 64, then the
bit length in 8 big-endian bytes. -/
def shaPad (ms : List Nat) : List Nat :=
  ms ++ 128 :: List.replicate ((119 - ms.length % 64) % 64) 0 ++ beBytes8 (8 * ms.length)

/-- Split into 64-byte blocks; the fuel makes the recursion structural and
the byte length always suffices. -/
def blocksAux : Nat → List Nat → List (List Nat)
  | 0, _ => []
  | fuel + 1, l => if l.isEmpty then [] else l.take 64 :: blocksAux fuel (l.drop 64)

/-- All 64-byte blocks of a padded message. -/
def shaBlocks (l : List Nat) : List (List Nat) :=
  blocksAux l.length l

/-- Big-endian 32-bit words of a block. -/
def wordsBE : List Nat → List Nat
  | b1 :: b2 :: b3 :: b4 :: rest =>
      (((b1 * 256 + b2) * 256 + b3) * 256 + b4) :: wordsBE rest
  | _ => []

/-- Message-schedule extension step, run 48 times to reach 64 words. -/
def scheduleAux : Nat → List Nat → List Nat
  | 0, ws => ws
  | fuel + 1, ws =>
      scheduleAux fuel (ws ++ [add32
        (add32 (ws.getD (ws.length - 16) 0) (smallS0 (ws.getD (ws.length - 15) 0)))
        (add32 (ws.getD (ws.length - 7) 0) (smallS1 (ws.getD (ws.length - 2) 0)))])

/-- Full 64-word message schedule of a block. -/
def schedule (block : List Nat) : List Nat :=
  scheduleAux 48 (wordsBE block)

/-- Working state of the compression function. -/
structure HState where
  a : Nat
  b : Nat
  c : Nat
  d : Nat
  e : Nat
  f : Nat
  g : Nat
  h : Nat

/-- One compression round on constant-and-schedule pair `kw`. -/
def roundStep (st : HState) (kw : Nat × Nat) : HState :=
  let t1 := add32 st.h (add32 (bigS1 st.e) (add32 (chF st.e st.f st.g) (add32 kw.1 kw.2)))
  let t2 := add32 (bigS0 st.a) (majF st.a st.b st.c)
  ⟨add32 t1 t2, st.a, st.b, st.c, add32 st.d t1, st.e, st.f, st.g⟩

/-- Compression of one block added onto the chaining state. -/
def compressBlock (st : HState) (block : List Nat) : HState :=
  let fin := (K256.zip (schedule block)).foldl roundStep st
  ⟨add32 st.a fin.a, add32 st.b fin.b, add32 st.c fin.c, add32 st.d fin.d,
   add32 st.e fin.e, add32 st.f fin.f, add32 st.g fin.g, add32 st.h fin.h⟩

/-- Initial hash state. -/
def shaInit : HState :=
  ⟨1779033703, 3144134277, 1013904242, 2773480762,
   1359893119, 2600822924, 528734635, 1541459225⟩

/-- SHA-256 digest bytes of a byte-list message. -/
def sha256 (ms : List Nat) : List Nat :=
  let st := (shaBlocks (shaPad ms)).foldl compressBlock shaInit
  beBytes4 st.a ++ beBytes4 st.b ++ beBytes4 st.c ++ beBytes4 st.d ++
    beBytes4 st.e ++ beBytes4 st.f ++ beBytes4 st.g ++ beBytes4 st.h

/-- Lowercase hexadecimal characters of a byte list, two per byte, as
`hexdigest` renders a digest. -/
def hexDigestChars : List Nat → List Char
  | [] => []
  | b :: rest => hexChar (b / 16 % 16) :: hexChar (b % 16) :: hexDigestChars rest

/-- The stored digest text of `example_no_reqs.py` line 59:
`f"0x(file_hash.hexdigest())"`. -/
def digestString (body : List Nat) : String :=
  String.mk ('0' :: 'x' :: hexDigestChars (sha256 body))

/-! UTF-8 between characters and bytes, modelling `str.encode("utf-8")`
and `bytes.decode("utf-8")`. -/

/-- UTF-8 bytes of one character. -/
def utf8EncodeChar (c : Char) : List Nat :=
  if c.toNat < 128 then [c.toNat]
  else if c.toNat < 2048 then [192 + c.toNat / 64, 128 + c.toNat % 64]
  else if c.toNat < 65536 then
    [224 + c.toNat / 4096, 128 + c.toNat / 64 % 64, 128 + c.toNat % 64]
  else
    [240 + c.toNat / 262144, 128 + c.toNat / 4096 % 64,
     128 + c.toNat / 64 % 64, 128 + c.toNat % 64]

/-- UTF-8 bytes of a character list. -/
def utf8Encode : List Char → List Nat
  | [] => []
  | c :: rest => utf8EncodeChar c ++ utf8Encode rest

/-- Continuation-byte test. -/
def utf8Cont (b : Nat) : Bool := 128 ≤ b ∧ b ≤ 191

/-- Strict UTF-8 decoding: rejects overlong forms, surrogates and values
above U+10FFFF, as Python byte decoding does. The fuel makes the recursion
structural; every step consumes at least one byte, so the byte count
always suffices as fuel. -/
def utf8DecodeAux : Nat → List Nat → Option (List Char)
  | 0, l => if l.isEmpty then some [] else none
  | fuel + 1, l =>
    match l with
    | [] => some []
    | b :: rest =>
      if b ≤ 127 then (utf8DecodeAux fuel rest).map fun cs => Char.ofNat b :: cs
      else if 194 ≤ b ∧ b ≤ 223 then
        match rest with
        | b2 :: rest2 =>
          if utf8Cont b2 then
            (utf8DecodeAux fuel rest2).map fun cs =>
              Char.ofNat ((b - 192) * 64 + (b2 - 128)) :: cs
          else none
        | [] => none
      else if 224 ≤ b ∧ b ≤ 239 then
        match rest with
        | b2 :: b3 :: rest2 =>
          if (if b = 224 then decide (160 ≤ b2 ∧ b2 ≤ 191)
              else if b = 237 then decide (128 ≤ b2 ∧ b2 ≤ 159)
              else utf8Cont b2) && utf8Cont b3 then
            (utf8DecodeAux fuel rest2).map fun cs =>
              Char.ofNat ((b - 224) * 4096 + (b2 - 128) * 64 + (b3 - 128)) :: cs
          else none
        | _ => none
      else if 240 ≤ b ∧ b ≤ 244 then
        match rest with
        | b2 :: b3 :: b4 :: rest2 =>
          if (if b = 240 then decide (144 ≤ b2 ∧ b2 ≤ 191)
              else if b = 244 then decide (128 ≤ b2 ∧ b2 ≤ 143)
              else utf8Cont b2) && utf8Cont b3 && utf8Cont b4 then
            (utf8DecodeAux fuel rest2).map fun cs =>
              Char.ofNat ((b - 240) * 262144 + (b2 - 128) * 4096 +
                (b3 - 128) * 64 + (b4 - 128)) :: cs
          else none
        | _ => none
      else none

/-- UTF-8 decoding of a byte list. -/
def utf8Decode (bs : List Nat) : Option (List Char) :=
  utf8DecodeAux bs.length bs

/-! Container framing. -/

/-- Little-endian value of byte list, as `struct.unpack("Q", ...)` reads
the 8-byte prefix. -/
def leNat : List Nat → Nat
  | [] => 0
  | b :: rest => b + 256 * leNat rest

/-- Little-endian 8-byte encoding, as `struct.pack("Q", n)` writes the
length prefix. Python raises for `n ≥ 2 ^ 64`; the model reduces modulo
`2 ^ 64`, and the theorems that depend on the prefix carry the explicit
bound under which the two agree. -/
def packLE8 (n : Nat) : List Nat :=
  [n % 256, n / 256 % 256, n / 65536 % 256, n / 16777216 % 256,
   n / 4294967296 % 256, n / 1099511627776 % 256,
   n / 281474976710656 % 256, n / 72057594037927936 % 256]

/-- Failure modes of the read path: `truncatedInput` models the
`struct.error` raised when fewer than 8 prefix bytes exist,
`malformedHeader` the UTF-8 or JSON decode errors of the header text, and
`badMetadata` the `TypeError` the scripts raise when the header is not an
object or `__metadata__` is not a flat string-to-string object. -/
inductive ReadError where
  | truncatedInput
  | malformedHeader
  | badMetadata
deriving DecidableEq

/-- Decode of `example_no_reqs.py` lines 52-56: 8-byte little-endian
length `L`, then `file_data.read(L)` — which returns at most `L` bytes —
parsed as JSON, and the remaining bytes as the body. -/
def decodeContainer (bs : List Nat) : Except ReadError (JVal × List Nat) :=
  if bs.length < 8 then .error .truncatedInput
  else
    match utf8Decode ((bs.drop 8).take (leNat (bs.take 8))) with
    | none => .error .malformedHeader
    | some chars =>
      match jsonLoads chars with
      | none => .error .malformedHeader
      | some h => .ok (h, bs.drop (8 + leNat (bs.take 8)))

/-- Encode of `example_no_reqs.py` lines 88-94: prefix packed from the
character length of `json.dumps(header)`, then its UTF-8 bytes, then the
body unchanged. -/
def encodeContainer (h : JVal) (body : List Nat) : List Nat :=
  packLE8 (serializeJ h).length ++ utf8Encode (serializeJ h) ++ body

/-! Metadata extraction from a header object. -/

/-- Key lookup in a JSON object. -/
def lookupJ : JObj → String → Option JVal
  | .nil, _ => none
  | .cons k v rest, key => if k = key then some v else lookupJ rest key

/-- A JSON object as a flat string-to-string map, when it is one. -/
def asMetaMap : JObj → Option MetaMap
  | .nil => some []
  | .cons k (.jstr s) rest => (asMetaMap rest).map fun m => (k, s) :: m
  | _ => none

/-- A metadata map as a JSON object of string values. -/
def toJObjMeta : MetaMap → JObj
  | [] => .nil
  | (k, v) :: rest => .cons k (.jstr v) (toJObjMeta rest)

/-- Append of JSON object entry lists. -/
def jobjAppend : JObj → JObj → JObj
  | .nil, o => o
  | .cons k v rest, o => .cons k v (jobjAppend rest o)

/-- Overwrite the value at a key in place. -/
def jobjOverwrite : JObj → String → JVal → JObj
  | .nil, _, _ => .nil
  | .cons k v rest, key, nv =>
    if k = key then .cons k nv (jobjOverwrite rest key nv)
    else .cons k v (jobjOverwrite rest key nv)

/-- Python `header[key] = v` on a dict: overwrite in place when present,
else append. -/
def jobjSet (entries : JObj) (key : String) (nv : JVal) : JObj :=
  if (lookupJ entries key).isSome then jobjOverwrite entries key nv
  else jobjAppend entries (.cons key nv .nil)

/-- Metadata of a decoded header, `example_no_reqs.py` lines 62-66: the
empty map when `__metadata__` is absent, its entries when it is a flat
string-to-string object, and the script's `TypeError` otherwise. -/
def origMetaOf (header : JVal) : Except ReadError MetaMap :=
  match header with
  | .jobj entries =>
    match lookupJ entries "__metadata__" with
    | none => .ok []
    | some (.jobj m) =>
      match asMetaMap m with
      | some mm => .ok mm
      | none => .error .badMetadata
    | some _ => .error .badMetadata
  | _ => .error .badMetadata

/-- The write of the new metadata into the header object,
`example_no_reqs.py` line 85. Non-object headers have already failed in
`origMetaOf`, so that branch is inert. -/
def setHeaderMeta (header : JVal) (m : MetaMap) : JVal :=
  match header with
  | .jobj entries => .jobj (jobjSet entries "__metadata__" (.jobj (toJObjMeta m)))
  | other => other

instance {e a : Type} [DecidableEq e] [DecidableEq a] : DecidableEq (Except e a) :=
  fun x y =>
  match x, y with
  | .error e1, .error e2 =>
    if h : e1 = e2 then isTrue (by rw [h]) else isFalse (by intro hc; cases hc; exact h rfl)
  | .ok v1, .ok v2 =>
    if h : v1 = v2 then isTrue (by rw [h]) else isFalse (by intro hc; cases hc; exact h rfl)
  | .error e1, .ok v2 => isFalse (by intro hc; cases hc)
  | .ok v1, .error e2 => isFalse (by intro hc; cases hc)

/-- Outcome of the hash comparison of `example_no_reqs.py` lines 69-74:
`notPresent` when no stored hash key exists (nothing is printed and
verification is skipped), otherwise the match or mismatch with both the
stored and the computed digest strings. -/
inductive VerifyResult where
  | hashMatch
  | hashMismatch (stored computed : String)
  | notPresent
deriving DecidableEq

/-- The whole `process` of `example_no_reqs.py` as a pure function of the
caller-supplied metadata and the input container bytes: decode, digest the
body, store the digest under `modelspec.hash_sha256`, compare against any
stored digest, replace the reserved namespace, and re-encode with the body
unchanged. -/
def processNoReqs (metadata : MetaMap) (input : List Nat) :
    Except ReadError (VerifyResult × List Nat) :=
  match decodeContainer input with
  | .error e => .error e
  | .ok (header, content) =>
    let computed := digestString content
    let meta2 := dictSet metadata "modelspec.hash_sha256" computed
    match origMetaOf header with
    | .error e => .error e
    | .ok origMeta =>
      let vres :=
        match lookupMeta origMeta "modelspec.hash_sha256" with
        | none => VerifyResult.notPresent
        | some stored =>
          if stored = computed then VerifyResult.hashMatch
          else VerifyResult.hashMismatch stored computed
      let outMeta := replaceReserved origMeta meta2
      .ok (vres, encodeContainer (setHeaderMeta header outMeta) content)

/-! Association-list lookup lemmas. -/

theorem length_mk (l : List Char) : (String.mk l).length = l.length :=
  (String.length_data (String.mk l)).symm

theorem lookupMeta_append_of_none (a b : MetaMap) (k : String)
    (h : lookupMeta a k = none) : lookupMeta (a ++ b) k = lookupMeta b k := by
  induction a with
  | nil => rfl
  | cons kv rest ih =>
    obtain ⟨k2, v⟩ := kv
    by_cases hk : k2 = k
    · simp [lookupMeta, hk] at h
    · simp only [lookupMeta, if_neg hk] at h ⊢
      exact ih h

theorem lookupMeta_append_of_some (a b : MetaMap) (k : String) (v : String)
    (h : lookupMeta a k = some v) : lookupMeta (a ++ b) k = some v := by
  induction a with
  | nil => simp [lookupMeta] at h
  | cons kv rest ih =>
    obtain ⟨k2, w⟩ := kv
    by_cases hk : k2 = k
    · simp only [lookupMeta, if_pos hk] at h ⊢
      exact h
    · simp only [lookupMeta, if_neg hk] at h ⊢
      exact ih h

theorem lookup_dropReserved_reserved (m : MetaMap) (k : String)
    (hk : isReservedKey k = true) : lookupMeta (dropReserved m) k = none := by
  induction m with
  | nil => rfl
  | cons kv rest ih =>
    obtain ⟨k2, v⟩ := kv
    unfold dropReserved List.filter
    by_cases hres : isReservedKey k2
    · simp only [hres, Bool.not_true]
      exact ih
    · have hne : k2 ≠ k := fun he => hres (he ▸ hk)
      simp only [eq_false_of_ne_true (by simpa using hres), Bool.not_false]
      simp only [lookupMeta, if_neg hne]
      exact ih

theorem lookup_dropReserved_foreign (m : MetaMap) (k : String)
    (hk : isReservedKey k = false) : lookupMeta (dropReserved m) k = lookupMeta m k := by
  induction m with
  | nil => rfl
  | cons kv rest ih =>
    obtain ⟨k2, v⟩ := kv
    unfold dropReserved List.filter
    by_cases hres : isReservedKey k2
    · have hne : k2 ≠ k := fun he => by rw [he, hk] at hres; exact Bool.noConfusion hres
      simp only [hres, Bool.not_true]
      rw [show lookupMeta ((k2, v) :: rest) k = lookupMeta rest k from by
        simp [lookupMeta, hne]]
      exact ih
    · simp only [eq_false_of_ne_true (by simpa using hres), Bool.not_false]
      by_cases hne : k2 = k
      · simp [lookupMeta, hne]
      · simp only [lookupMeta, if_neg hne]
        exact ih

theorem lookup_map_overwrite (m n : MetaMap) (k : String) :
    lookupMeta (m.map fun kv =>
      match lookupMeta n kv.1 with
      | some v => (kv.1, v)
      | none => kv) k =
    (lookupMeta m k).map fun v => (lookupMeta n k).getD v := by
  induction m with
  | nil => rfl
  | cons kv rest ih =>
    obtain ⟨k2, v⟩ := kv
    by_cases hk : k2 = k
    · subst hk
      cases hn : lookupMeta n k2 <;>
        simp [lookupMeta, List.map, hn]
    · cases hn : lookupMeta n k2 <;>
        simpa [lookupMeta, List.map, hn, hk] using ih

theorem lookup_filter_absent (m n : MetaMap) (k : String)
    (h : lookupMeta m k = none) :
    lookupMeta (n.filter fun kv => (lookupMeta m kv.1).isNone) k = lookupMeta n k := by
  induction n with
  | nil => rfl
  | cons kv rest ih =>
    obtain ⟨k2, v⟩ := kv
    by_cases hk : k2 = k
    · subst hk
      simp only [List.filter, h, Option.isNone_none]
      simp [lookupMeta]
    · cases hm : lookupMeta m k2 <;>
        simp only [List.filter, hm, Option.isNone_none, Option.isNone_some] <;>
        simp only [lookupMeta, if_neg hk] <;>
        exact ih

set_option linter.unnecessarySeqFocus false in
theorem lookup_filter_present (m n : MetaMap) (k : String)
    (h : (lookupMeta m k).isSome = true) :
    lookupMeta (n.filter fun kv => (lookupMeta m kv.1).isNone) k = none := by
  induction n with
  | nil => rfl
  | cons kv rest ih =>
    obtain ⟨k2, v⟩ := kv
    by_cases hk : k2 = k
    · subst hk
      obtain ⟨w, hw⟩ := Option.isSome_iff_exists.mp h
      simp only [List.filter, hw, Option.isNone_some]
      exact ih
    · cases hm : lookupMeta m k2 <;>
        simp only [List.filter, hm, Option.isNone_none, Option.isNone_some] <;>
        [skip; exact ih] <;>
        simp only [lookupMeta, if_neg hk] <;>
        exact ih

theorem lookup_all_reserved_none (n : MetaMap) (k : String)
    (hres : ∀ kv ∈ n, isReservedKey kv.1 = true) (hk : isReservedKey k = false) :
    lookupMeta n k = none := by
  induction n with
  | nil => rfl
  | cons kv rest ih =>
    obtain ⟨k2, v⟩ := kv
    have h2 : isReservedKey k2 = true := hres (k2, v) (List.mem_cons_self _ _)
    have hne : k2 ≠ k := fun he => by rw [he, hk] at h2; exact Bool.noConfusion h2
    simp only [lookupMeta, if_neg hne]
    exact ih fun kv hm => hres kv (List.mem_cons_of_mem _ hm)

theorem lookup_replaceReserved_reserved (orig newEntries : MetaMap) (k : String)
    (hk : isReservedKey k = true) :
    lookupMeta (replaceReserved orig newEntries) k = lookupMeta newEntries k := by
  have h1 : lookupMeta (dropReserved orig) k = none :=
    lookup_dropReserved_reserved orig k hk
  unfold replaceReserved dictUpdate
  rw [lookupMeta_append_of_none]
  · exact lookup_filter_absent _ _ _ h1
  · rw [lookup_map_overwrite, h1]
    rfl

/-- C1: after the write-path metadata replacement, looking up any reserved
key in the output map agrees with the caller-supplied entries (so no
reserved key of the input survives), and looking up any foreign key agrees
with the input map, value unchanged. -/
theorem reserved_namespace_replacement (orig newEntries : MetaMap)
    (hres : ∀ kv ∈ newEntries, isReservedKey kv.1 = true) :
    (∀ k, isReservedKey k = true →
      lookupMeta (replaceReserved orig newEntries) k = lookupMeta newEntries k) ∧
    (∀ k, isReservedKey k = false →
      lookupMeta (replaceReserved orig newEntries) k = lookupMeta orig k) := by
  constructor
  · intro k hk
    exact lookup_replaceReserved_reserved orig newEntries k hk
  · intro k hk
    have h1 : lookupMeta (dropReserved orig) k = lookupMeta orig k :=
      lookup_dropReserved_foreign orig k hk
    have h2 : lookupMeta newEntries k = none :=
      lookup_all_reserved_none newEntries k hres hk
    unfold replaceReserved dictUpdate
    cases hc : lookupMeta orig k with
    | none =>
      rw [lookupMeta_append_of_none]
      · rw [lookup_filter_absent _ _ _ (h1.trans hc), h2]
      · rw [lookup_map_overwrite, h1, hc]
        rfl
    | some v =>
      apply lookupMeta_append_of_some
      rw [lookup_map_overwrite, h1, hc]
      simp [h2]

/-- Witness for C1 at a concrete input: the input reserved key
`modelspec.old` is gone from the output, the foreign key `author` keeps its
value, and the new reserved entry is the caller-supplied one. -/
theorem reserved_namespace_replacement_witness :
    lookupMeta (replaceReserved [("modelspec.old", "1"), ("author", "me")]
      [("modelspec.title", "t")]) "modelspec.old" = none ∧
    lookupMeta (replaceReserved [("modelspec.old", "1"), ("author", "me")]
      [("modelspec.title", "t")]) "author" = some "me" ∧
    lookupMeta (replaceReserved [("modelspec.old", "1"), ("author", "me")]
      [("modelspec.title", "t")]) "modelspec.title" = some "t" := by
  have h := reserved_namespace_replacement [("modelspec.old", "1"), ("author", "me")]
    [("modelspec.title", "t")] (by decide)
  refine ⟨?_, ?_, ?_⟩
  · rw [h.1 "modelspec.old" (by decide)]
    decide
  · rw [h.2 "author" (by decide)]
    decide
  · rw [h.1 "modelspec.title" (by decide)]
    decide

/-- C7: the display-formatting utility returns the value unchanged when its
length is at most the limit, and otherwise the first `maxLen` characters
followed by the `"..."` marker, for a total of `maxLen + 3` characters. -/
theorem format_value_truncation (v : String) (maxLen : Nat) :
    (v.length ≤ maxLen → formatValue v maxLen = v) ∧
    (maxLen < v.length →
      formatValue v maxLen = v.take maxLen ++ "..." ∧
      (formatValue v maxLen).length = maxLen + 3) := by
  constructor
  · intro h
    unfold formatValue
    rw [if_neg (by omega)]
  · intro h
    refine ⟨by unfold formatValue; rw [if_pos h], ?_⟩
    unfold formatValue
    rw [if_pos h, String.length_append, String.take_eq]
    have hd := String.length_data (String.mk (v.data.take maxLen))
    have hv := String.length_data v
    have h1 : (String.mk (v.data.take maxLen)).length = maxLen := by
      simp only [String.mk] at hd
      rw [← hd, List.length_take]
      omega
    have h2 : "...".length = 3 := rfl
    rw [h1, h2]

/-- Witness for C7: a 500-character value with limit 200 yields the first
200 characters plus the marker (203 characters total), and a 100-character
value is returned unchanged. -/
theorem format_value_truncation_witness :
    formatValue (String.mk (List.replicate 500 'a')) 200 =
      (String.mk (List.replicate 500 'a')).take 200 ++ "..." ∧
    (formatValue (String.mk (List.replicate 500 'a')) 200).length = 203 ∧
    formatValue (String.mk (List.replicate 100 'a')) 200 =
      String.mk (List.replicate 100 'a') := by
  have h500 : (String.mk (List.replicate 500 'a')).length = 500 := by
    rw [length_mk, List.length_replicate]
  have h100 : (String.mk (List.replicate 100 'a')).length = 100 := by
    rw [length_mk, List.length_replicate]
  have ha := (format_value_truncation (String.mk (List.replicate 500 'a')) 200).2
    (by omega)
  have hb := (format_value_truncation (String.mk (List.replicate 100 'a')) 200).1
    (by omega)
  exact ⟨ha.1, ha.2, hb⟩

/-- Counterexample for C8: in the read path of `example_no_reqs.py`, a
reserved entry under key `modelspec.description` (neither the thumbnail key
nor a data-URI value) with an 801-character value is displayed with limit
200, not 800: the displayed string differs from the one limit 800 would
produce. -/
theorem display_limit_cex :
    isReservedKey "modelspec.description" = true ∧
    ("modelspec.description" = "modelspec.thumbnail" ∨
      startsWithStr (String.mk (List.replicate 801 'a')) "data:image/" = true → False) ∧
    noReqsDisplayValue (String.mk (List.replicate 801 'a')) ≠
      formatValue (String.mk (List.replicate 801 'a')) 800 := by
  have hlen : (String.mk (List.replicate 801 'a')).length = 801 := by
    rw [length_mk, List.length_replicate]
  refine ⟨by decide, ?_, ?_⟩
  · rintro (h | h)
    · exact absurd h (by decide)
    · have : startsWithStr (String.mk (List.replicate 801 'a')) "data:image/" = false := by
        decide
      rw [this] at h
      exact Bool.noConfusion h
  · intro heq
    have h200 := (format_value_truncation (String.mk (List.replicate 801 'a')) 200).2
      (by omega)
    have h800 := (format_value_truncation (String.mk (List.replicate 801 'a')) 800).2
      (by omega)
    have := congrArg String.length heq
    rw [show noReqsDisplayValue (String.mk (List.replicate 801 'a')) =
      formatValue (String.mk (List.replicate 801 'a')) 200 from rfl] at this
    rw [h200.2, h800.2] at this
    omega

/-- C8 as amended: in the read-only display path the limit is 200 exactly
when the key is `modelspec.thumbnail` or the value starts with
`data:image/` and 800 otherwise, while the read-write example of
`example_no_reqs.py` displays every reserved entry with limit 200. -/
theorem display_limit_selection (key v : String) :
    ((key = "modelspec.thumbnail" ∨ startsWithStr v "data:image/" = true) →
      readOnlyDisplayValue key v = formatValue v 200) ∧
    (¬ (key = "modelspec.thumbnail" ∨ startsWithStr v "data:image/" = true) →
      readOnlyDisplayValue key v = formatValue v 800) ∧
    noReqsDisplayValue v = formatValue v 200 := by
  refine ⟨?_, ?_, rfl⟩
  · intro h
    unfold readOnlyDisplayValue readOnlyMaxLen
    rw [if_pos (by tauto)]
  · intro h
    unfold readOnlyDisplayValue readOnlyMaxLen
    rw [if_neg (by tauto)]

/-- Witness for the amended C8: the thumbnail key gets limit 200 and an
ordinary key with a plain value gets limit 800. -/
theorem display_limit_selection_witness :
    readOnlyDisplayValue "modelspec.thumbnail" "abc" = formatValue "abc" 200 ∧
    readOnlyDisplayValue "modelspec.author" "abc" = formatValue "abc" 800 := by
  refine ⟨(display_limit_selection "modelspec.thumbnail" "abc").1 (Or.inl rfl), ?_⟩
  refine (display_limit_selection "modelspec.author" "abc").2.1 ?_
  rintro (h | h)
  · exact absurd h (by decide)
  · exact absurd h (by decide)

/-- Counterexample for C2: with the source's own extension handling, the
path `a.jpg` embeds as `data:image/.jpg;base64,...` — the MIME-subtype
portion keeps the leading dot of the extension, contradicting the claimed
`data:image/jpg;base64,...` form. -/
theorem embed_extension_dot_cex :
    embedThumbnail "a.jpg" [1, 2, 3] = "data:image/.jpg;base64,AQID" ∧
    embedThumbnail "a.jpg" [1, 2, 3] ≠ "data:image/jpg;base64,AQID" := by
  constructor
  · decide
  · decide

/-- C2 as amended: the embed step produces `data:image/` followed by the
extension exactly as `os.path.splitext` returns it — with its leading dot
whenever an extension exists — then `;base64,` and the base64 text of the
image bytes. -/
theorem embed_extension_as_supplied (imagePath : String) (pngBytes : List Nat) :
    embedThumbnail imagePath pngBytes =
      "data:image/" ++ splitextExt imagePath ++ ";base64," ++ convert_to_b64 pngBytes ∧
    ((splitextExt imagePath).data.head? = none ∨
      (splitextExt imagePath).data.head? = some '.') := by
  refine ⟨rfl, ?_⟩
  unfold splitextExt extFromBase
  split
  · exact Or.inl rfl
  · split
    · exact Or.inr rfl
    · exact Or.inl rfl

/-! Lemmas about the pipeline building blocks. -/

theorem lookup_setEntry_self (m : MetaMap) (k v : String)
    (hp : (lookupMeta m k).isSome = true) :
    lookupMeta (setEntry m k v) k = some v := by
  induction m with
  | nil => simp [lookupMeta] at hp
  | cons kv rest ih =>
    obtain ⟨k2, w⟩ := kv
    by_cases hk : k2 = k
    · simp [setEntry, hk, lookupMeta]
    · simp only [lookupMeta, if_neg hk] at hp
      simp only [setEntry, if_neg hk, lookupMeta]
      exact ih hp

theorem lookup_dictSet_self (m : MetaMap) (k v : String) :
    lookupMeta (dictSet m k v) k = some v := by
  unfold dictSet
  by_cases hp : (lookupMeta m k).isSome
  · rw [if_pos hp]
    exact lookup_setEntry_self m k v hp
  · rw [if_neg hp]
    have hnone : lookupMeta m k = none := by
      cases hc : lookupMeta m k
      · rfl
      · rw [hc] at hp
        simp at hp
    rw [lookupMeta_append_of_none _ _ _ hnone]
    simp [lookupMeta]

theorem asMetaMap_toJObjMeta (m : MetaMap) : asMetaMap (toJObjMeta m) = some m := by
  induction m with
  | nil => rfl
  | cons kv rest ih =>
    obtain ⟨k, v⟩ := kv
    simp [toJObjMeta, asMetaMap, ih]

theorem lookupJ_overwrite_self (entries : JObj) (key : String) (nv : JVal)
    (hp : (lookupJ entries key).isSome = true) :
    lookupJ (jobjOverwrite entries key nv) key = some nv := by
  cases entries with
  | nil => simp [lookupJ] at hp
  | cons k v rest =>
    by_cases hk : k = key
    · simp [jobjOverwrite, hk, lookupJ]
    · simp only [lookupJ, if_neg hk] at hp
      simp only [jobjOverwrite, if_neg hk, lookupJ]
      exact lookupJ_overwrite_self rest key nv hp

theorem lookupJ_append_self (entries : JObj) (key : String) (nv : JVal)
    (hnone : lookupJ entries key = none) :
    lookupJ (jobjAppend entries (JObj.cons key nv JObj.nil)) key = some nv := by
  cases entries with
  | nil => simp [jobjAppend, lookupJ]
  | cons k v rest =>
    have hk : k ≠ key := by
      intro he
      simp [lookupJ, he] at hnone
    simp only [lookupJ, if_neg hk] at hnone
    simp only [jobjAppend, lookupJ, if_neg hk]
    exact lookupJ_append_self rest key nv hnone

theorem lookupJ_jobjSet_self (entries : JObj) (key : String) (nv : JVal) :
    lookupJ (jobjSet entries key nv) key = some nv := by
  unfold jobjSet
  by_cases hp : (lookupJ entries key).isSome
  · rw [if_pos hp]
    exact lookupJ_overwrite_self entries key nv hp
  · rw [if_neg hp]
    have hnone : lookupJ entries key = none := by
      cases hc : lookupJ entries key
      · rfl
      · rw [hc] at hp
        simp at hp
    exact lookupJ_append_self entries key nv hnone

theorem origMetaOf_setHeaderMeta (entries : JObj) (m : MetaMap) :
    origMetaOf (setHeaderMeta (JVal.jobj entries) m) = Except.ok m := by
  show origMetaOf (JVal.jobj (jobjSet entries "__metadata__"
    (JVal.jobj (toJObjMeta m)))) = Except.ok m
  simp only [origMetaOf, lookupJ_jobjSet_self, asMetaMap_toJObjMeta]

theorem origMetaOf_ok_jobj (header : JVal) (m : MetaMap)
    (h : origMetaOf header = Except.ok m) : ∃ entries, header = JVal.jobj entries := by
  cases header with
  | jobj entries => exact ⟨entries, rfl⟩
  | jnull => simp [origMetaOf] at h
  | jbool b => simp [origMetaOf] at h
  | jnum n => simp [origMetaOf] at h
  | jstr s => simp [origMetaOf] at h
  | jarr es => simp [origMetaOf] at h

/-- C4: when the stored `modelspec.hash_sha256` differs from the digest of
the decoded body, the process reports a mismatch carrying both the stored
and the computed digest strings, does not fail, and the metadata
replacement and re-encode of the output still happen. -/
theorem hash_mismatch_reported (metadata : MetaMap) (input : List Nat)
    (header : JVal) (content : List Nat) (origMeta : MetaMap) (stored : String)
    (hdec : decodeContainer input = Except.ok (header, content))
    (hmeta : origMetaOf header = Except.ok origMeta)
    (hstored : lookupMeta origMeta "modelspec.hash_sha256" = some stored)
    (hne : stored ≠ digestString content) :
    processNoReqs metadata input =
      Except.ok (VerifyResult.hashMismatch stored (digestString content),
        encodeContainer (setHeaderMeta header (replaceReserved origMeta
          (dictSet metadata "modelspec.hash_sha256" (digestString content)))) content) := by
  simp only [processNoReqs, hdec, hmeta, hstored, if_neg hne]

/-- Witness for C4 at a concrete container whose stored hash is the string
`bad`: the mismatch result carries `bad` and the computed digest, and the
output container is produced. -/
theorem hash_mismatch_reported_witness :
    processNoReqs []
      (encodeContainer (JVal.jobj (JObj.cons "__metadata__"
        (JVal.jobj (JObj.cons "modelspec.hash_sha256" (JVal.jstr "bad") JObj.nil))
        JObj.nil)) []) =
      Except.ok (VerifyResult.hashMismatch "bad" (digestString []),
        encodeContainer (setHeaderMeta
          (JVal.jobj (JObj.cons "__metadata__"
            (JVal.jobj (JObj.cons "modelspec.hash_sha256" (JVal.jstr "bad") JObj.nil))
            JObj.nil))
          (replaceReserved [("modelspec.hash_sha256", "bad")]
            (dictSet [] "modelspec.hash_sha256" (digestString [])))) []) :=
  hash_mismatch_reported [] _
    (JVal.jobj (JObj.cons "__metadata__"
      (JVal.jobj (JObj.cons "modelspec.hash_sha256" (JVal.jstr "bad") JObj.nil))
      JObj.nil))
    [] [("modelspec.hash_sha256", "bad")] "bad"
    (by decide) (by decide) (by decide) (by decide)

/-- C5: when the input metadata has no `modelspec.hash_sha256` key, the
process still succeeds, the comparison is skipped and the outcome is
`notPresent`, and the replacement and write still happen. -/
theorem hash_not_present_skipped (metadata : MetaMap) (input : List Nat)
    (header : JVal) (content : List Nat) (origMeta : MetaMap)
    (hdec : decodeContainer input = Except.ok (header, content))
    (hmeta : origMetaOf header = Except.ok origMeta)
    (hnone : lookupMeta origMeta "modelspec.hash_sha256" = none) :
    processNoReqs metadata input =
      Except.ok (VerifyResult.notPresent,
        encodeContainer (setHeaderMeta header (replaceReserved origMeta
          (dictSet metadata "modelspec.hash_sha256" (digestString content)))) content) := by
  simp only [processNoReqs, hdec, hmeta, hnone]

/-- Witness for C5 at a concrete container without metadata: decoding
succeeds, the outcome is `notPresent` and the output is produced. -/
theorem hash_not_present_skipped_witness :
    processNoReqs [] (encodeContainer (JVal.jobj JObj.nil) [7]) =
      Except.ok (VerifyResult.notPresent,
        encodeContainer (setHeaderMeta (JVal.jobj JObj.nil)
          (replaceReserved []
            (dictSet [] "modelspec.hash_sha256" (digestString [7])))) [7]) :=
  hash_not_present_skipped [] _ (JVal.jobj JObj.nil) [7] []
    (by decide) (by decide) (by decide)

/-- C9: on any successful run, the output container is the re-encode of
the body bytes that were hashed — the body is copied unchanged — and the
output header's metadata stores under `modelspec.hash_sha256` exactly `0x`
followed by the digest of that same body. -/
theorem output_hash_matches_output_body (metadata : MetaMap) (input : List Nat)
    (header : JVal) (content : List Nat) (origMeta : MetaMap)
    (hdec : decodeContainer input = Except.ok (header, content))
    (hmeta : origMetaOf header = Except.ok origMeta) :
    ∃ vres outMeta,
      processNoReqs metadata input =
        Except.ok (vres, encodeContainer (setHeaderMeta header outMeta) content) ∧
      origMetaOf (setHeaderMeta header outMeta) = Except.ok outMeta ∧
      lookupMeta outMeta "modelspec.hash_sha256" = some (digestString content) := by
  obtain ⟨entries, rfl⟩ := origMetaOf_ok_jobj header _ hmeta
  have hlk : lookupMeta (replaceReserved origMeta
      (dictSet metadata "modelspec.hash_sha256" (digestString content)))
      "modelspec.hash_sha256" = some (digestString content) := by
    rw [lookup_replaceReserved_reserved _ _ _ (by decide)]
    exact lookup_dictSet_self metadata _ _
  rcases hs : lookupMeta origMeta "modelspec.hash_sha256" with _ | stored
  · exact ⟨VerifyResult.notPresent,
      replaceReserved origMeta
        (dictSet metadata "modelspec.hash_sha256" (digestString content)),
      by simp only [processNoReqs, hdec, hmeta, hs],
      origMetaOf_setHeaderMeta entries _, hlk⟩
  · by_cases he : stored = digestString content
    · exact ⟨VerifyResult.hashMatch,
        replaceReserved origMeta
          (dictSet metadata "modelspec.hash_sha256" (digestString content)),
        by simp only [processNoReqs, hdec, hmeta, hs, if_pos he],
        origMetaOf_setHeaderMeta entries _, hlk⟩
    · exact ⟨VerifyResult.hashMismatch stored (digestString content),
        replaceReserved origMeta
          (dictSet metadata "modelspec.hash_sha256" (digestString content)),
        by simp only [processNoReqs, hdec, hmeta, hs, if_neg he],
        origMetaOf_setHeaderMeta entries _, hlk⟩

/-- Witness for C9 at a concrete container: instantiating the theorem at a
metadata-free header and one-byte body. -/
theorem output_hash_matches_output_body_witness :
    ∃ vres outMeta,
      processNoReqs [("x", "y")] (encodeContainer (JVal.jobj JObj.nil) [3, 1]) =
        Except.ok (vres,
          encodeContainer (setHeaderMeta (JVal.jobj JObj.nil) outMeta) [3, 1]) ∧
      origMetaOf (setHeaderMeta (JVal.jobj JObj.nil) outMeta) = Except.ok outMeta ∧
      lookupMeta outMeta "modelspec.hash_sha256" = some (digestString [3, 1]) :=
  output_hash_matches_output_body [("x", "y")] _ (JVal.jobj JObj.nil) [3, 1] []
    (by decide) (by decide)

/-- Counterexample for C6: an input whose prefix declares a header length
of 100 with only 2 bytes following does not fail with a truncation error —
the 2 available bytes parse as the header `\x7b\x7d` and decode succeeds
with an empty body. -/
theorem decode_truncated_decl_cex :
    (packLE8 100 ++ [123, 125]).length = 10 ∧
    decodeContainer (packLE8 100 ++ [123, 125]) =
      Except.ok (JVal.jobj JObj.nil, []) := by
  constructor
  · decide
  · decide

/-- C6 as amended: an input of fewer than 8 bytes fails with
`truncatedInput` at the framing stage; with at least 8 bytes, whatever
header length is declared, decoding consumes the bytes that are available
and never reports `truncatedInput` — it fails as a malformed header or
succeeds. -/
theorem decode_truncation_behavior (bs : List Nat) :
    (bs.length < 8 → decodeContainer bs = Except.error ReadError.truncatedInput) ∧
    (8 ≤ bs.length → decodeContainer bs ≠ Except.error ReadError.truncatedInput) := by
  constructor
  · intro h
    unfold decodeContainer
    rw [if_pos h]
  · intro h hcontra
    unfold decodeContainer at hcontra
    rw [if_neg (by omega)] at hcontra
    rcases hu : utf8Decode ((bs.drop 8).take (leNat (bs.take 8))) with _ | chars
    · simp [hu] at hcontra
    · rcases hj : jsonLoads chars with _ | v
      · simp [hu, hj] at hcontra
      · simp [hu, hj] at hcontra

/-- Witness for the amended C6: a 3-byte input fails with truncation while
an 8-byte input declaring more data than follows does not. -/
theorem decode_truncation_behavior_witness :
    decodeContainer [0, 0, 0] = Except.error ReadError.truncatedInput ∧
    decodeContainer [9, 0, 0, 0, 0, 0, 0, 0] ≠
      Except.error ReadError.truncatedInput :=
  ⟨(decode_truncation_behavior [0, 0, 0]).1 (by decide),
   (decode_truncation_behavior [9, 0, 0, 0, 0, 0, 0, 0]).2 (by decide)⟩

/-! Round-trip groundwork: characters, digits and whitespace. -/

theorem digitVal_digitChar (n : Nat) (h : n < 10) : digitVal (digitChar n) = some n := by
  interval_cases n <;> decide

theorem hexVal_hexChar (n : Nat) (h : n < 16) : hexVal (hexChar n) = some n := by
  interval_cases n <;> decide

theorem digitChar_not_ws (n : Nat) (h : n < 10) : isWs (digitChar n) = false := by
  interval_cases n <;> decide

theorem char_toNat_valid (c : Char) :
    c.toNat < 55296 ∨ (57344 ≤ c.toNat ∧ c.toNat < 1114112) := by
  have h := c.valid
  unfold UInt32.isValidChar Nat.isValidChar at h
  rcases h with h | ⟨h1, h2⟩
  · exact Or.inl h
  · exact Or.inr ⟨h1, h2⟩

theorem skipWs_cons_not_ws (c : Char) (l : List Char) (h : isWs c = false) :
    skipWs (c :: l) = c :: l := by
  simp [skipWs, List.dropWhile_cons, h]

theorem skipWs_cons_ws (c : Char) (l : List Char) (h : isWs c = true) :
    skipWs (c :: l) = skipWs l := by
  simp [skipWs, List.dropWhile_cons, h]

theorem natDigitsAux_head (fuel n : Nat) :
    ∃ d t, d < 10 ∧ natDigitsAux fuel n = digitChar d :: t := by
  induction fuel generalizing n with
  | zero => exact ⟨n % 10, [], Nat.mod_lt _ (by omega), rfl⟩
  | succ fuel ih =>
    unfold natDigitsAux
    by_cases h : n < 10
    · rw [if_pos h]
      exact ⟨n, [], h, rfl⟩
    · rw [if_neg h]
      obtain ⟨d, t, hd, he⟩ := ih (n / 10)
      exact ⟨d, t ++ [digitChar (n % 10)], hd, by rw [he]; rfl⟩

theorem parseNatAux_stop (l : List Char) (acc : Nat) (h : noDigitHead l = true) :
    parseNatAux l acc = (acc, l) := by
  cases l with
  | nil => rfl
  | cons c rest =>
    unfold parseNatAux
    cases hd : digitVal c with
    | none => rfl
    | some d => simp [noDigitHead, hd] at h

theorem parseNatAux_cons (c : Char) (rest : List Char) (acc : Nat) :
    parseNatAux (c :: rest) acc =
      match digitVal c with
      | some d => parseNatAux rest (acc * 10 + d)
      | none => (acc, c :: rest) := rfl

theorem parseNatAux_digits (fuel : Nat) : ∀ n acc rest, n ≤ fuel →
    parseNatAux (natDigitsAux fuel n ++ rest) acc =
      parseNatAux rest (acc * 10 ^ (natDigitsAux fuel n).length + n) := by
  induction fuel with
  | zero =>
    intro n acc rest hn
    have hn0 : n = 0 := by omega
    subst hn0
    show parseNatAux (digitChar 0 :: rest) acc = _
    rw [parseNatAux_cons, digitVal_digitChar 0 (by omega)]
    simp [natDigitsAux]
  | succ fuel ih =>
    intro n acc rest hn
    unfold natDigitsAux
    by_cases h : n < 10
    · rw [if_pos h]
      show parseNatAux (digitChar n :: rest) acc = _
      rw [parseNatAux_cons, digitVal_digitChar n h]
      simp
    · rw [if_neg h]
      rw [List.append_assoc, List.singleton_append]
      rw [ih (n / 10) acc (digitChar (n % 10) :: rest) (by omega)]
      rw [parseNatAux_cons, digitVal_digitChar (n % 10) (by omega)]
      rw [List.length_append, List.length_singleton, pow_succ]
      show parseNatAux rest
        ((acc * 10 ^ (natDigitsAux fuel (n / 10)).length + n / 10) * 10 + n % 10) = _
      congr 1
      have hdm : n / 10 * 10 + n % 10 = n := by omega
      calc (acc * 10 ^ (natDigitsAux fuel (n / 10)).length + n / 10) * 10 + n % 10
          = acc * (10 ^ (natDigitsAux fuel (n / 10)).length * 10) +
              (n / 10 * 10 + n % 10) := by ring
        _ = acc * (10 ^ (natDigitsAux fuel (n / 10)).length * 10) + n := by rw [hdm]

theorem parseNat_natDigits (n : Nat) (rest : List Char) (h : noDigitHead rest = true) :
    parseNatAux (natDigits n ++ rest) 0 = (n, rest) := by
  unfold natDigits
  rw [parseNatAux_digits n n 0 rest (le_refl n), parseNatAux_stop rest _ h]
  simp

theorem hex4Val_digits (n : Nat) (h : n < 65536) :
    hex4Val (hexChar (n / 4096 % 16)) (hexChar (n / 256 % 16))
      (hexChar (n / 16 % 16)) (hexChar (n % 16)) = some n := by
  unfold hex4Val
  rw [hexVal_hexChar _ (by omega), hexVal_hexChar _ (by omega),
    hexVal_hexChar _ (by omega), hexVal_hexChar _ (by omega)]
  show some ((((n / 4096 % 16) * 16 + n / 256 % 16) * 16 + n / 16 % 16) * 16 + n % 16) =
    some n
  congr 1
  omega

/-! String escape round-trip. -/

theorem parseStrBody_close (fuel : Nat) (rest acc : List Char) :
    parseStrBody (fuel + 1) ('"' :: rest) acc =
      some (String.mk acc.reverse, rest) := rfl

theorem parseStrBody_u (fuel : Nat) (c1 c2 c3 c4 : Char) (rest acc : List Char) :
    parseStrBody (fuel + 1) ('\\' :: 'u' :: c1 :: c2 :: c3 :: c4 :: rest) acc =
      (match hex4Val c1 c2 c3 c4 with
      | none => none
      | some n =>
        if 55296 ≤ n ∧ n ≤ 56319 then
          match rest with
          | b1 :: u2 :: d1 :: d2 :: d3 :: d4 :: rest4 =>
            if b1 = '\\' ∧ u2 = 'u' then
              match hex4Val d1 d2 d3 d4 with
              | some m =>
                if 56320 ≤ m ∧ m ≤ 57343 then
                  parseStrBody fuel rest4
                    (Char.ofNat (65536 + (n - 55296) * 1024 + (m - 56320)) :: acc)
                else none
              | none => none
            else none
          | _ => none
        else if 56320 ≤ n ∧ n ≤ 57343 then none
        else parseStrBody fuel rest (Char.ofNat n :: acc)) := rfl

theorem parseStrBody_lit (fuel : Nat) (c : Char) (rest acc : List Char)
    (h1 : ¬c = '"') (h2 : ¬c = '\\') :
    parseStrBody (fuel + 1) (c :: rest) acc = parseStrBody fuel rest (c :: acc) := by
  show (if c = '"' then some (String.mk acc.reverse, rest)
    else if c = '\\' then _ else parseStrBody fuel rest (c :: acc)) = _
  rw [if_neg h1, if_neg h2]

theorem parseStrBody_escapeChar (c : Char) (X acc : List Char) (fuel : Nat) :
    parseStrBody (fuel + 1) (escapeChar c ++ X) acc = parseStrBody fuel X (c :: acc) := by
  by_cases h1 : c = '"'
  · subst h1
    rfl
  by_cases h2 : c = '\\'
  · subst h2
    rfl
  by_cases h3 : c = Char.ofNat 8
  · subst h3
    rfl
  by_cases h4 : c = Char.ofNat 9
  · subst h4
    rfl
  by_cases h5 : c = Char.ofNat 10
  · subst h5
    rfl
  by_cases h6 : c = Char.ofNat 12
  · subst h6
    rfl
  by_cases h7 : c = Char.ofNat 13
  · subst h7
    rfl
  rw [escapeChar, if_neg h1, if_neg h2, if_neg h3, if_neg h4, if_neg h5, if_neg h6,
    if_neg h7]
  by_cases h8 : c.toNat < 32
  · rw [if_pos h8, hex4]
    simp only [List.cons_append, List.nil_append]
    rw [parseStrBody_u]
    simp only [hex4Val_digits c.toNat (by omega), if_neg (show
      ¬(55296 ≤ c.toNat ∧ c.toNat ≤ 56319) by omega), if_neg (show
      ¬(56320 ≤ c.toNat ∧ c.toNat ≤ 57343) by omega), Char.ofNat_toNat]
  rw [if_neg h8]
  by_cases h9 : c.toNat ≤ 126
  · rw [if_pos h9]
    simp only [List.cons_append, List.nil_append]
    exact parseStrBody_lit fuel c X acc h1 h2
  rw [if_neg h9]
  have hval := char_toNat_valid c
  by_cases h10 : c.toNat ≤ 65535
  · rw [if_pos h10, hex4]
    simp only [List.cons_append, List.nil_append]
    rw [parseStrBody_u]
    simp only [hex4Val_digits c.toNat (by omega), if_neg (show
      ¬(55296 ≤ c.toNat ∧ c.toNat ≤ 56319) by omega), if_neg (show
      ¬(56320 ≤ c.toNat ∧ c.toNat ≤ 57343) by omega), Char.ofNat_toNat]
  · rw [if_neg h10, hex4, hex4]
    simp only [List.cons_append, List.nil_append, List.append_assoc]
    rw [parseStrBody_u]
    have harg : 65536 + (55296 + (c.toNat - 65536) / 1024 - 55296) * 1024 +
        (56320 + (c.toNat - 65536) % 1024 - 56320) = c.toNat := by omega
    simp only [hex4Val_digits (55296 + (c.toNat - 65536) / 1024) (by omega),
      if_pos (show 55296 ≤ 55296 + (c.toNat - 65536) / 1024 ∧
        55296 + (c.toNat - 65536) / 1024 ≤ 56319 by constructor <;> omega),
      if_pos (show ('\\' : Char) = '\\' ∧ ('u' : Char) = 'u' from ⟨rfl, rfl⟩),
      hex4Val_digits (56320 + (c.toNat - 65536) % 1024) (by omega),
      if_pos (show 56320 ≤ 56320 + (c.toNat - 65536) % 1024 ∧
        56320 + (c.toNat - 65536) % 1024 ≤ 57343 by constructor <;> omega),
      harg, Char.ofNat_toNat]
    simp

theorem parseStrBody_escapeList (l : List Char) : ∀ fuel acc rest,
    l.length + 1 ≤ fuel →
    parseStrBody fuel (escapeList l ++ '"' :: rest) acc =
      some (String.mk (acc.reverse ++ l), rest) := by
  induction l with
  | nil =>
    intro fuel acc rest hf
    obtain ⟨f, rfl⟩ := Nat.exists_eq_succ_of_ne_zero (show fuel ≠ 0 by omega)
    rw [show escapeList ([] : List Char) = [] from rfl, List.nil_append,
      parseStrBody_close]
    simp
  | cons c l ih =>
    intro fuel acc rest hf
    obtain ⟨f, rfl⟩ := Nat.exists_eq_succ_of_ne_zero (show fuel ≠ 0 by omega)
    rw [show escapeList (c :: l) = escapeChar c ++ escapeList l from rfl,
      List.append_assoc, parseStrBody_escapeChar c _ _ f]
    rw [ih f (c :: acc) rest (by simp at hf; omega)]
    simp

set_option maxHeartbeats 1000000 in
theorem escapeChar_length_pos (c : Char) : 1 ≤ (escapeChar c).length := by
  rw [escapeChar]
  split_ifs <;> simp [hex4]

theorem escapeList_length_ge (l : List Char) : l.length ≤ (escapeList l).length := by
  induction l with
  | nil => simp [escapeList]
  | cons c l ih =>
    show l.length + 1 ≤ (escapeChar c ++ escapeList l).length
    rw [List.length_append]
    have := escapeChar_length_pos c
    omega

theorem string_mk_data (s : String) : String.mk s.data = s := rfl

theorem parseStrBody_serializeStr (s : String) (rest : List Char) :
    parseStrBody (escapeList s.data ++ '"' :: rest).length
      (escapeList s.data ++ '"' :: rest) [] = some (s, rest) := by
  rw [parseStrBody_escapeList s.data _ [] rest (by
    rw [List.length_append, List.length_cons]
    have := escapeList_length_ge s.data
    omega)]
  simp [string_mk_data]

/-! Parser step equations, each holding by definitional unfolding. -/

theorem parseVal_succ (fuel : Nat) (l : List Char) :
    parseVal (fuel + 1) l =
      (match skipWs l with
      | [] => none
      | c :: rest =>
        if c = 'n' then
          match rest with
          | 'u' :: 'l' :: 'l' :: rest2 => some (.jnull, rest2)
          | _ => none
        else if c = 't' then
          match rest with
          | 'r' :: 'u' :: 'e' :: rest2 => some (.jbool true, rest2)
          | _ => none
        else if c = 'f' then
          match rest with
          | 'a' :: 'l' :: 's' :: 'e' :: rest2 => some (.jbool false, rest2)
          | _ => none
        else if c = '"' then
          match parseStrBody rest.length rest [] with
          | some (s, rest2) => some (.jstr s, rest2)
          | none => none
        else if c = '-' then
          match rest with
          | [] => none
          | c2 :: rest2 =>
            match digitVal c2 with
            | some _ =>
              (match parseNatAux (c2 :: rest2) 0 with
              | (n, rest3) => some (.jnum (-(n : Int)), rest3))
            | none => none
        else if c = '[' then
          match skipWs rest with
          | [] => none
          | c2 :: rest2 =>
            if c2 = ']' then some (.jarr .nil, rest2)
            else
              match parseVal fuel rest with
              | some (v, rest3) =>
                (match parseArrRest fuel rest3 with
                | some (vs, rest4) => some (.jarr (.cons v vs), rest4)
                | none => none)
              | none => none
        else if c = lbraceC then
          match skipWs rest with
          | [] => none
          | c2 :: rest2 =>
            if c2 = rbraceC then some (.jobj .nil, rest2)
            else
              match parseMembers fuel rest with
              | some (kvs, rest3) => some (.jobj kvs, rest3)
              | none => none
        else
          match digitVal c with
          | some _ =>
            (match parseNatAux (c :: rest) 0 with
            | (n, rest2) => some (.jnum (n : Int), rest2))
          | none => none) := rfl

theorem parseVal_quote (fuel : Nat) (rest : List Char) :
    parseVal (fuel + 1) ('"' :: rest) =
      (match parseStrBody rest.length rest [] with
      | some (s, rest2) => some (.jstr s, rest2)
      | none => none) := rfl

theorem parseVal_lbrack (fuel : Nat) (rest : List Char) :
    parseVal (fuel + 1) ('[' :: rest) =
      (match skipWs rest with
      | [] => none
      | c2 :: rest2 =>
        if c2 = ']' then some (.jarr .nil, rest2)
        else
          match parseVal fuel rest with
          | some (v, rest3) =>
            (match parseArrRest fuel rest3 with
            | some (vs, rest4) => some (.jarr (.cons v vs), rest4)
            | none => none)
          | none => none) := rfl

theorem parseVal_lbrace (fuel : Nat) (rest : List Char) :
    parseVal (fuel + 1) (lbraceC :: rest) =
      (match skipWs rest with
      | [] => none
      | c2 :: rest2 =>
        if c2 = rbraceC then some (.jobj .nil, rest2)
        else
          match parseMembers fuel rest with
          | some (kvs, rest3) => some (.jobj kvs, rest3)
          | none => none) := rfl

theorem parseVal_ws_cons (fuel : Nat) (l : List Char) :
    parseVal (fuel + 1) (' ' :: l) = parseVal (fuel + 1) l := rfl

theorem parseMembers_ws_cons (fuel : Nat) (l : List Char) :
    parseMembers (fuel + 1) (' ' :: l) = parseMembers (fuel + 1) l := rfl

theorem parseArrRest_comma (fuel : Nat) (rest : List Char) :
    parseArrRest (fuel + 1) (',' :: rest) =
      (match parseVal fuel rest with
      | some (v, rest2) =>
        (match parseArrRest fuel rest2 with
        | some (vs, rest3) => some (.cons v vs, rest3)
        | none => none)
      | none => none) := rfl

theorem parseMembers_quote (fuel : Nat) (rest : List Char) :
    parseMembers (fuel + 1) ('"' :: rest) =
      (match parseStrBody rest.length rest [] with
      | none => none
      | some (k, rest2) =>
        match skipWs rest2 with
        | [] => none
        | c2 :: rest3 =>
          if c2 = ':' then
            match parseVal fuel rest3 with
            | none => none
            | some (v, rest4) =>
              match skipWs rest4 with
              | [] => none
              | c3 :: rest5 =>
                if c3 = ',' then
                  match parseMembers fuel rest5 with
                  | some (kvs, rest6) => some (.cons k v kvs, rest6)
                  | none => none
                else if c3 = rbraceC then some (.cons k v .nil, rest5)
                else none
          else none) := rfl

/-! Head shapes of serializations. -/

theorem digitChar_props (d : Nat) (h : d < 10) :
    isWs (digitChar d) = false ∧ ¬digitChar d = 'n' ∧ ¬digitChar d = 't' ∧
    ¬digitChar d = 'f' ∧ ¬digitChar d = '"' ∧ ¬digitChar d = '-' ∧
    ¬digitChar d = '[' ∧ ¬digitChar d = lbraceC ∧ ¬digitChar d = ']' ∧
    ¬digitChar d = rbraceC := by
  interval_cases d <;> decide

theorem serializeJ_head (v : JVal) : ∃ c t, serializeJ v = c :: t ∧
    isWs c = false ∧ ¬c = ']' ∧ ¬c = rbraceC := by
  cases v with
  | jnull => refine ⟨'n', _, rfl, ?_, ?_, ?_⟩ <;> decide
  | jbool b =>
    cases b with
    | true => refine ⟨'t', _, rfl, ?_, ?_, ?_⟩ <;> decide
    | false => refine ⟨'f', _, rfl, ?_, ?_, ?_⟩ <;> decide
  | jnum n =>
    show ∃ c t, intDigits n = c :: t ∧ _
    unfold intDigits
    by_cases hn : n < 0
    · rw [if_pos hn]
      exact ⟨'-', _, rfl, by decide, by decide, by decide⟩
    · rw [if_neg hn]
      obtain ⟨d, t, hd, he⟩ := natDigitsAux_head n.toNat n.toNat
      obtain ⟨p1, _, _, _, _, _, _, _, p9, p10⟩ := digitChar_props d hd
      exact ⟨digitChar d, t, he, p1, p9, p10⟩
  | jstr s => exact ⟨'"', _, rfl, by decide, by decide, by decide⟩
  | jarr es => exact ⟨'[', _, rfl, by decide, by decide, by decide⟩
  | jobj kvs => exact ⟨lbraceC, _, rfl, by decide, by decide, by decide⟩

theorem skipWs_serialize (v : JVal) (X : List Char) :
    skipWs (serializeJ v ++ X) = serializeJ v ++ X := by
  obtain ⟨c, t, he, hws, _, _⟩ := serializeJ_head v
  rw [he, List.cons_append, skipWs_cons_not_ws _ _ hws]

theorem noDigitHead_ATail (vs : JArr) (rest : List Char) :
    noDigitHead (serializeATail vs ++ rest) = true := by
  cases vs with
  | nil => rfl
  | cons v vs => rfl

theorem noDigitHead_OTail (ks : JObj) (rest : List Char) :
    noDigitHead (serializeOTail ks ++ rest) = true := by
  cases ks with
  | nil => rfl
  | cons k v ks => rfl

/-! Serialization bridges: an array or object body with its closing
bracket splits as the first item followed by the tail serialization. -/

theorem serializeA_bridge (v : JVal) (vs : JArr) :
    serializeA (.cons v vs) ++ [']'] = serializeJ v ++ serializeATail vs := by
  cases vs with
  | nil => rfl
  | cons w ws =>
    show (serializeJ v ++ (',' :: ' ' :: serializeA (.cons w ws))) ++ [']'] = _
    rw [List.append_assoc]
    show serializeJ v ++ (',' :: ' ' :: (serializeA (.cons w ws) ++ [']'])) = _
    rw [serializeA_bridge w ws]
    rfl

theorem serializeO_bridge (k : String) (v : JVal) (ks : JObj) :
    serializeO (.cons k v ks) ++ [rbraceC] =
      serializeStr k ++ ':' :: ' ' :: (serializeJ v ++ serializeOTail ks) := by
  cases ks with
  | nil =>
    show (serializeStr k ++ (':' :: ' ' :: serializeJ v)) ++ [rbraceC] = _
    rw [List.append_assoc]
    rfl
  | cons k2 v2 ks2 =>
    show (serializeStr k ++ (':' :: ' ' :: serializeJ v) ++
      (',' :: ' ' :: serializeO (.cons k2 v2 ks2))) ++ [rbraceC] = _
    rw [List.append_assoc, List.append_assoc]
    simp only [List.cons_append, List.nil_append]
    rw [show (serializeO (.cons k2 v2 ks2) : List Char) ++ [rbraceC] =
      serializeStr k2 ++ ':' :: ' ' :: (serializeJ v2 ++ serializeOTail ks2) from
      serializeO_bridge k2 v2 ks2]
    rfl

/-! Fuel bounds: the parser fuel a value needs is bounded by the length of
its serialization. -/

theorem serializeJ_length_pos (v : JVal) : 1 ≤ (serializeJ v).length := by
  obtain ⟨c, t, he, _, _, _⟩ := serializeJ_head v
  rw [he]
  simp

theorem serializeATail_length_pos (vs : JArr) : 1 ≤ (serializeATail vs).length := by
  cases vs with
  | nil => decide
  | cons v vs => simp [serializeATail]

theorem serializeOTail_length_pos (ks : JObj) : 1 ≤ (serializeOTail ks).length := by
  cases ks with
  | nil => decide
  | cons k v ks => simp [serializeOTail]

theorem sizeJ_pos (v : JVal) : 1 ≤ sizeJ v := by
  cases v <;> simp [sizeJ]

mutual
theorem sizeJ_le (v : JVal) : sizeJ v ≤ (serializeJ v).length + 1 := by
  cases v with
  | jnull => decide
  | jbool b => cases b <;> decide
  | jnum n =>
    have := sizeJ_pos (JVal.jnum n)
    have := serializeJ_length_pos (JVal.jnum n)
    show sizeJ (JVal.jnum n) ≤ _
    simp only [sizeJ]
    omega
  | jstr s =>
    simp [sizeJ]
  | jarr es =>
    cases es with
    | nil => decide
    | cons v vs =>
      have h1 := sizeJ_le v
      have h2 := sizeA_le vs
      have h3 := serializeATail_length_pos vs
      have hb := congrArg List.length (serializeA_bridge v vs)
      rw [List.length_append, List.length_append, List.length_singleton] at hb
      show 1 + sizeA (.cons v vs) ≤ ('[' :: (serializeA (.cons v vs) ++ [']'])).length + 1
      show 1 + (1 + max (sizeJ v) (sizeA vs)) ≤ _
      simp only [List.length_cons, List.length_append, List.length_singleton]
      omega
  | jobj kvs =>
    cases kvs with
    | nil => decide
    | cons k v ks =>
      have h1 := sizeJ_le v
      have h2 := sizeO_le ks
      have h3 := serializeOTail_length_pos ks
      have hb := congrArg List.length (serializeO_bridge k v ks)
      simp only [List.length_append, List.length_singleton, List.length_cons] at hb
      show 1 + sizeO (.cons k v ks) ≤
        (lbraceC :: (serializeO (.cons k v ks) ++ [rbraceC])).length + 1
      show 1 + (1 + max (sizeJ v) (sizeO ks)) ≤ _
      simp only [List.length_cons, List.length_append, List.length_singleton]
      omega

theorem sizeA_le (vs : JArr) : sizeA vs ≤ (serializeATail vs).length := by
  cases vs with
  | nil => decide
  | cons v vs =>
    have h1 := sizeJ_le v
    have h2 := sizeA_le vs
    show 1 + max (sizeJ v) (sizeA vs) ≤
      (',' :: ' ' :: (serializeJ v ++ serializeATail vs)).length
    simp only [List.length_cons, List.length_append]
    omega

theorem sizeO_le (ks : JObj) : sizeO ks ≤ (serializeOTail ks).length := by
  cases ks with
  | nil => decide
  | cons k v ks =>
    have h1 := sizeJ_le v
    have h2 := sizeO_le ks
    show 1 + max (sizeJ v) (sizeO ks) ≤
      (',' :: ' ' :: (serializeStr k ++ ':' :: ' ' :: (serializeJ v ++
        serializeOTail ks))).length
    simp only [List.length_cons, List.length_append]
    omega
end

/-! Ground whitespace-skip steps. -/

theorem skipWs_quote (l : List Char) : skipWs ('"' :: l) = '"' :: l := rfl

theorem skipWs_colon (l : List Char) : skipWs (':' :: l) = ':' :: l := rfl

theorem skipWs_comma (l : List Char) : skipWs (',' :: l) = ',' :: l := rfl

theorem skipWs_rbrace (l : List Char) : skipWs (rbraceC :: l) = rbraceC :: l := rfl

/-! The serialization of any value parses back to exactly that value,
leaving the trailing input untouched, whenever the fuel covers the value
size and the trailing input does not begin with a digit. -/

mutual
theorem parse_ser_val (v : JVal) : ∀ (fuel : Nat) (rest : List Char),
    sizeJ v ≤ fuel → noDigitHead rest = true →
    parseVal fuel (serializeJ v ++ rest) = some (v, rest) := by
  intro fuel rest hf hrest
  obtain ⟨f, rfl⟩ := Nat.exists_eq_succ_of_ne_zero (show fuel ≠ 0 by
    have := sizeJ_pos v; omega)
  cases v with
  | jnull => rfl
  | jbool b => cases b <;> rfl
  | jstr s =>
    have harg : serializeJ (.jstr s) ++ rest =
        '"' :: (escapeList s.data ++ '"' :: rest) := by
      show ('"' :: (escapeList s.data ++ ['"'])) ++ rest = _
      simp [List.cons_append, List.append_assoc]
    rw [harg, parseVal_quote, parseStrBody_serializeStr s rest]
  | jnum n =>
    by_cases hn : n < 0
    · have harg : serializeJ (.jnum n) ++ rest =
          '-' :: (natDigits (-n).toNat ++ rest) := by
        show intDigits n ++ rest = _
        rw [intDigits, if_pos hn]
        simp [List.cons_append]
      rw [harg, parseVal_succ, skipWs_cons_not_ws _ _ (by decide)]
      obtain ⟨d, t, hd, he⟩ := natDigitsAux_head (-n).toNat (-n).toNat
      have he2 : natDigits (-n).toNat = digitChar d :: t := he
      rw [he2]
      simp only [if_neg (show ¬('-' : Char) = 'n' by decide),
        if_neg (show ¬('-' : Char) = 't' by decide),
        if_neg (show ¬('-' : Char) = 'f' by decide),
        if_neg (show ¬('-' : Char) = '"' by decide),
        if_pos (show ('-' : Char) = '-' from rfl), if_true,
        List.cons_append, digitVal_digitChar d hd]
      rw [← List.cons_append, ← he2, parseNat_natDigits _ rest hrest]
      have hcast : (((-n).toNat : Nat) : Int) = -n := Int.toNat_of_nonneg (by omega)
      simp only [hcast, neg_neg]
    · have harg : serializeJ (.jnum n) ++ rest = natDigits n.toNat ++ rest := by
        show intDigits n ++ rest = _
        rw [intDigits, if_neg hn]
      obtain ⟨d, t, hd, he⟩ := natDigitsAux_head n.toNat n.toNat
      have he2 : natDigits n.toNat = digitChar d :: t := he
      obtain ⟨p1, p2, p3, p4, p5, p6, p7, p8, p9, p10⟩ := digitChar_props d hd
      rw [harg, he2, List.cons_append, parseVal_succ, skipWs_cons_not_ws _ _ p1]
      simp only [if_neg p2, if_neg p3, if_neg p4, if_neg p5, if_neg p6, if_neg p7,
        if_neg p8, digitVal_digitChar d hd]
      rw [← List.cons_append, ← he2, parseNat_natDigits _ rest hrest]
      have hcast : ((n.toNat : Nat) : Int) = n := Int.toNat_of_nonneg (by omega)
      simp only [hcast]
  | jarr es =>
    cases es with
    | nil => rfl
    | cons v1 vs =>
      have hsz : sizeJ v1 ≤ f ∧ sizeA vs ≤ f := by
        simp only [sizeJ, sizeA] at hf
        omega
      have harg : serializeJ (.jarr (.cons v1 vs)) ++ rest =
          '[' :: (serializeJ v1 ++ (serializeATail vs ++ rest)) := by
        show ('[' :: (serializeA (.cons v1 vs) ++ [']'])) ++ rest = _
        rw [List.cons_append, serializeA_bridge, List.append_assoc]
      rw [harg, parseVal_lbrack, skipWs_serialize v1 (serializeATail vs ++ rest)]
      obtain ⟨c, t, he, hws, hnb, hnr⟩ := serializeJ_head v1
      have hp : parseVal f (c :: (t ++ (serializeATail vs ++ rest))) =
          some (v1, serializeATail vs ++ rest) := by
        rw [← List.cons_append, ← he]
        exact parse_ser_val v1 f _ hsz.1 (noDigitHead_ATail vs rest)
      simp only [he, List.cons_append, if_neg hnb, hp,
        parse_ser_arrTail vs f rest hsz.2]
  | jobj kvs =>
    cases kvs with
    | nil => rfl
    | cons k v1 ks =>
      have hsz : sizeO (.cons k v1 ks) ≤ f := by
        simp only [sizeJ] at hf
        omega
      have harg : serializeJ (.jobj (.cons k v1 ks)) ++ rest =
          lbraceC :: (serializeStr k ++ ':' :: ' ' :: (serializeJ v1 ++
            (serializeOTail ks ++ rest))) := by
        show (lbraceC :: (serializeO (.cons k v1 ks) ++ [rbraceC])) ++ rest = _
        rw [List.cons_append, serializeO_bridge]
        simp [List.cons_append, List.append_assoc]
      have hq : serializeStr k ++ ':' :: ' ' :: (serializeJ v1 ++
          (serializeOTail ks ++ rest)) = '"' :: (escapeList k.data ++ '"' ::
          (':' :: ' ' :: (serializeJ v1 ++ (serializeOTail ks ++ rest)))) := by
        show ('"' :: (escapeList k.data ++ ['"'])) ++ _ = _
        simp [List.cons_append, List.append_assoc]
      have hp : parseMembers f ('"' :: (escapeList k.data ++ '"' ::
          (':' :: ' ' :: (serializeJ v1 ++ (serializeOTail ks ++ rest))))) =
          some (JObj.cons k v1 ks, rest) := by
        rw [← hq]
        exact parse_ser_members k v1 ks f rest hsz
      rw [harg, parseVal_lbrace, hq, skipWs_quote]
      simp only [if_neg (show ¬('"' : Char) = rbraceC by decide), hp]
termination_by sizeOf v

theorem parse_ser_arrTail (vs : JArr) : ∀ (fuel : Nat) (rest : List Char),
    sizeA vs ≤ fuel →
    parseArrRest fuel (serializeATail vs ++ rest) = some (vs, rest) := by
  intro fuel rest hf
  obtain ⟨f, rfl⟩ := Nat.exists_eq_succ_of_ne_zero (show fuel ≠ 0 by
    cases vs <;> simp [sizeA] at hf <;> omega)
  cases vs with
  | nil => rfl
  | cons v1 vs =>
    have hsz : sizeJ v1 ≤ f ∧ sizeA vs ≤ f := by
      simp only [sizeA] at hf
      omega
    obtain ⟨g, rfl⟩ := Nat.exists_eq_succ_of_ne_zero (show f ≠ 0 by
      have := sizeJ_pos v1; omega)
    have harg : serializeATail (.cons v1 vs) ++ rest =
        ',' :: ' ' :: (serializeJ v1 ++ (serializeATail vs ++ rest)) := by
      show (',' :: ' ' :: (serializeJ v1 ++ serializeATail vs)) ++ rest = _
      simp [List.cons_append, List.append_assoc]
    rw [harg, parseArrRest_comma, parseVal_ws_cons]
    simp only [parse_ser_val v1 (g + 1) (serializeATail vs ++ rest) hsz.1
        (noDigitHead_ATail vs rest),
      parse_ser_arrTail vs (g + 1) rest hsz.2]
termination_by sizeOf vs

theorem parse_ser_members (k : String) (v : JVal) (ks : JObj) :
    ∀ (fuel : Nat) (rest : List Char), sizeO (.cons k v ks) ≤ fuel →
    parseMembers fuel (serializeStr k ++ ':' :: ' ' :: (serializeJ v ++
      (serializeOTail ks ++ rest))) = some (JObj.cons k v ks, rest) := by
  intro fuel rest hf
  have hv1 := sizeJ_pos v
  obtain ⟨f, rfl⟩ := Nat.exists_eq_succ_of_ne_zero (show fuel ≠ 0 by
    simp only [sizeO] at hf; omega)
  have hsz : sizeJ v ≤ f ∧ sizeO ks ≤ f := by
    simp only [sizeO] at hf
    omega
  obtain ⟨g, rfl⟩ := Nat.exists_eq_succ_of_ne_zero (show f ≠ 0 by omega)
  have hq : serializeStr k ++ ':' :: ' ' :: (serializeJ v ++
      (serializeOTail ks ++ rest)) = '"' :: (escapeList k.data ++ '"' ::
      (':' :: ' ' :: (serializeJ v ++ (serializeOTail ks ++ rest)))) := by
    show ('"' :: (escapeList k.data ++ ['"'])) ++ _ = _
    simp [List.cons_append, List.append_assoc]
  rw [hq, parseMembers_quote]
  simp only [parseStrBody_serializeStr k, skipWs_colon,
    if_pos (show (':' : Char) = ':' from rfl), parseVal_ws_cons,
    parse_ser_val v (g + 1) (serializeOTail ks ++ rest) hsz.1
      (noDigitHead_OTail ks rest)]
  cases ks with
  | nil =>
    rw [show serializeOTail JObj.nil ++ rest = rbraceC :: rest from rfl]
    simp only [skipWs_rbrace, if_neg (show ¬rbraceC = ',' by decide),
      if_pos (show rbraceC = rbraceC from rfl), if_true]
  | cons k2 v2 ks2 =>
    have harg : serializeOTail (.cons k2 v2 ks2) ++ rest =
        ',' :: ' ' :: (serializeStr k2 ++ ':' :: ' ' :: (serializeJ v2 ++
          (serializeOTail ks2 ++ rest))) := by
      show (',' :: ' ' :: (serializeStr k2 ++ ':' :: ' ' :: (serializeJ v2 ++
        serializeOTail ks2))) ++ rest = _
      simp [List.cons_append, List.append_assoc]
    rw [harg]
    simp only [skipWs_comma, if_pos (show (',' : Char) = ',' from rfl), if_true,
      parseMembers_ws_cons, parse_ser_members k2 v2 ks2 (g + 1) rest hsz.2]
termination_by 1 + sizeOf v + sizeOf ks
end

/-- A parsed serialization leaves no trailing input, so `jsonLoads`
recovers the value exactly. -/
theorem jsonLoads_serialize (v : JVal) : jsonLoads (serializeJ v) = some v := by
  unfold jsonLoads
  have hp := parse_ser_val v ((serializeJ v).length + 1) []
    (le_trans (sizeJ_le v) (by omega)) rfl
  rw [List.append_nil] at hp
  rw [hp]
  rfl

/-! Every character the serializer emits is ASCII, the `ensure_ascii`
behaviour of `json.dumps`. -/

theorem hexChar_ascii (n : Nat) (h : n < 16) : (hexChar n).toNat < 128 := by
  interval_cases n <;> decide

theorem digitChar_ascii (d : Nat) (h : d < 10) : (digitChar d).toNat < 128 := by
  interval_cases d <;> decide

set_option maxHeartbeats 1000000 in
set_option maxRecDepth 4000 in
theorem escapeChar_ascii (c : Char) : ∀ x ∈ escapeChar c, x.toNat < 128 := by
  intro x hx
  rw [escapeChar] at hx
  split_ifs at hx
  · simp only [List.mem_cons, List.not_mem_nil, or_false] at hx
    rcases hx with h | h <;> (subst h; decide)
  · simp only [List.mem_cons, List.not_mem_nil, or_false] at hx
    rcases hx with h | h <;> (subst h; decide)
  · simp only [List.mem_cons, List.not_mem_nil, or_false] at hx
    rcases hx with h | h <;> (subst h; decide)
  · simp only [List.mem_cons, List.not_mem_nil, or_false] at hx
    rcases hx with h | h <;> (subst h; decide)
  · simp only [List.mem_cons, List.not_mem_nil, or_false] at hx
    rcases hx with h | h <;> (subst h; decide)
  · simp only [List.mem_cons, List.not_mem_nil, or_false] at hx
    rcases hx with h | h <;> (subst h; decide)
  · simp only [List.mem_cons, List.not_mem_nil, or_false] at hx
    rcases hx with h | h <;> (subst h; decide)
  · simp only [hex4, List.mem_cons, List.not_mem_nil, or_false] at hx
    rcases hx with h | h | h | h | h | h
    · subst h; decide
    · subst h; decide
    · subst h; exact hexChar_ascii _ (by omega)
    · subst h; exact hexChar_ascii _ (by omega)
    · subst h; exact hexChar_ascii _ (by omega)
    · subst h; exact hexChar_ascii _ (by omega)
  · simp only [List.mem_cons, List.not_mem_nil, or_false] at hx
    subst hx
    omega
  · simp only [hex4, List.mem_cons, List.not_mem_nil, or_false] at hx
    rcases hx with h | h | h | h | h | h
    · subst h; decide
    · subst h; decide
    · subst h; exact hexChar_ascii _ (by omega)
    · subst h; exact hexChar_ascii _ (by omega)
    · subst h; exact hexChar_ascii _ (by omega)
    · subst h; exact hexChar_ascii _ (by omega)
  · simp only [hex4, List.cons_append, List.nil_append, List.mem_cons,
      List.not_mem_nil, or_false] at hx
    rcases hx with h | h | h | h | h | h | h | h | h | h | h | h
    · subst h; decide
    · subst h; decide
    · subst h; exact hexChar_ascii _ (by omega)
    · subst h; exact hexChar_ascii _ (by omega)
    · subst h; exact hexChar_ascii _ (by omega)
    · subst h; exact hexChar_ascii _ (by omega)
    · subst h; decide
    · subst h; decide
    · rw [h]; exact hexChar_ascii _ (by omega)
    · rw [h]; exact hexChar_ascii _ (by omega)
    · rw [h]; exact hexChar_ascii _ (by omega)
    · rw [h]; exact hexChar_ascii _ (by omega)

theorem natDigitsAux_ascii (fuel : Nat) : ∀ n x, x ∈ natDigitsAux fuel n →
    x.toNat < 128 := by
  induction fuel with
  | zero =>
    intro n x hx
    simp only [natDigitsAux, List.mem_singleton] at hx
    subst hx
    exact digitChar_ascii _ (by omega)
  | succ fuel ih =>
    intro n x hx
    rw [natDigitsAux] at hx
    by_cases h : n < 10
    · rw [if_pos h] at hx
      simp only [List.mem_singleton] at hx
      subst hx
      exact digitChar_ascii _ h
    · rw [if_neg h] at hx
      rcases List.mem_append.mp hx with h2 | h2
      · exact ih _ _ h2
      · simp only [List.mem_singleton] at h2
        subst h2
        exact digitChar_ascii _ (by omega)

theorem intDigits_ascii (n : Int) : ∀ x ∈ intDigits n, x.toNat < 128 := by
  intro x hx
  rw [intDigits] at hx
  by_cases h : n < 0
  · rw [if_pos h] at hx
    rcases List.mem_cons.mp hx with h2 | h2
    · subst h2; decide
    · exact natDigitsAux_ascii _ _ _ h2
  · rw [if_neg h] at hx
    exact natDigitsAux_ascii _ _ _ hx

theorem escapeList_ascii (l : List Char) : ∀ x ∈ escapeList l, x.toNat < 128 := by
  induction l with
  | nil => intro x hx; simp [escapeList] at hx
  | cons c l ih =>
    intro x hx
    rcases List.mem_append.mp hx with h | h
    · exact escapeChar_ascii c x h
    · exact ih x h

theorem serializeStr_ascii (s : String) : ∀ x ∈ serializeStr s, x.toNat < 128 := by
  intro x hx
  rcases List.mem_cons.mp hx with h | h
  · subst h; decide
  · rcases List.mem_append.mp h with h2 | h2
    · exact escapeList_ascii _ _ h2
    · simp only [List.mem_singleton] at h2
      subst h2
      decide

mutual
theorem serializeJ_ascii (v : JVal) : ∀ x ∈ serializeJ v, x.toNat < 128 := by
  intro x hx
  cases v with
  | jnull =>
    simp only [show serializeJ .jnull = ['n', 'u', 'l', 'l'] from rfl,
      List.mem_cons, List.not_mem_nil, or_false] at hx
    rcases hx with h | h | h | h <;> (subst h; decide)
  | jbool b =>
    cases b with
    | true =>
      simp only [show serializeJ (.jbool true) = ['t', 'r', 'u', 'e'] from rfl,
        List.mem_cons, List.not_mem_nil, or_false] at hx
      rcases hx with h | h | h | h <;> (subst h; decide)
    | false =>
      simp only [show serializeJ (.jbool false) = ['f', 'a', 'l', 's', 'e'] from rfl,
        List.mem_cons, List.not_mem_nil, or_false] at hx
      rcases hx with h | h | h | h | h <;> (subst h; decide)
  | jnum n => exact intDigits_ascii n x hx
  | jstr s => exact serializeStr_ascii s x hx
  | jarr es =>
    rcases List.mem_cons.mp hx with h | h
    · subst h; decide
    · rcases List.mem_append.mp h with h2 | h2
      · exact serializeA_ascii es x h2
      · simp only [List.mem_singleton] at h2
        subst h2
        decide
  | jobj kvs =>
    rcases List.mem_cons.mp hx with h | h
    · subst h; decide
    · rcases List.mem_append.mp h with h2 | h2
      · exact serializeO_ascii kvs x h2
      · simp only [List.mem_singleton] at h2
        subst h2
        decide

theorem serializeA_ascii (es : JArr) : ∀ x ∈ serializeA es, x.toNat < 128 := by
  intro x hx
  cases es with
  | nil => simp [serializeA] at hx
  | cons v rest =>
    cases rest with
    | nil => exact serializeJ_ascii v x hx
    | cons w ws =>
      rw [show serializeA (.cons v (.cons w ws)) =
        serializeJ v ++ (',' :: ' ' :: serializeA (.cons w ws)) from rfl] at hx
      rcases List.mem_append.mp hx with h | h
      · exact serializeJ_ascii v x h
      · rcases List.mem_cons.mp h with h2 | h2
        · subst h2; decide
        · rcases List.mem_cons.mp h2 with h3 | h3
          · subst h3; decide
          · exact serializeA_ascii (.cons w ws) x h3

theorem serializeO_ascii (ks : JObj) : ∀ x ∈ serializeO ks, x.toNat < 128 := by
  intro x hx
  cases ks with
  | nil => simp [serializeO] at hx
  | cons k v rest =>
    cases rest with
    | nil =>
      rw [show serializeO (.cons k v .nil) =
        serializeStr k ++ (':' :: ' ' :: serializeJ v) from rfl] at hx
      rcases List.mem_append.mp hx with h | h
      · exact serializeStr_ascii k x h
      · rcases List.mem_cons.mp h with h2 | h2
        · subst h2; decide
        · rcases List.mem_cons.mp h2 with h3 | h3
          · subst h3; decide
          · exact serializeJ_ascii v x h3
    | cons k2 v2 ks2 =>
      rw [show serializeO (.cons k v (.cons k2 v2 ks2)) =
        serializeStr k ++ (':' :: ' ' :: serializeJ v) ++
          (',' :: ' ' :: serializeO (.cons k2 v2 ks2)) from rfl] at hx
      rcases List.mem_append.mp hx with h | h
      · rcases List.mem_append.mp h with h2 | h2
        · exact serializeStr_ascii k x h2
        · rcases List.mem_cons.mp h2 with h3 | h3
          · subst h3; decide
          · rcases List.mem_cons.mp h3 with h4 | h4
            · subst h4; decide
            · exact serializeJ_ascii v x h4
      · rcases List.mem_cons.mp h with h2 | h2
        · subst h2; decide
        · rcases List.mem_cons.mp h2 with h3 | h3
          · subst h3; decide
          · exact serializeO_ascii (.cons k2 v2 ks2) x h3
end

/-! UTF-8 on ASCII text: one byte per character, decoded back exactly. -/

theorem utf8EncodeChar_ascii (c : Char) (h : c.toNat < 128) :
    utf8EncodeChar c = [c.toNat] := by
  rw [utf8EncodeChar, if_pos h]

theorem utf8_len (l : List Char) (h : ∀ x ∈ l, x.toNat < 128) :
    (utf8Encode l).length = l.length := by
  induction l with
  | nil => rfl
  | cons c l ih =>
    show (utf8EncodeChar c ++ utf8Encode l).length = _
    rw [utf8EncodeChar_ascii c (h c (List.mem_cons_self _ _)), List.length_append,
      ih fun x hx => h x (List.mem_cons_of_mem _ hx)]
    simp [Nat.add_comm]

theorem utf8DecodeAux_ascii_cons (fuel b : Nat) (rest : List Nat) (h : b ≤ 127) :
    utf8DecodeAux (fuel + 1) (b :: rest) =
      (utf8DecodeAux fuel rest).map fun cs => Char.ofNat b :: cs := by
  simp only [utf8DecodeAux, if_pos h]

theorem utf8DecodeAux_encode (l : List Char) : ∀ fuel, (∀ x ∈ l, x.toNat < 128) →
    l.length ≤ fuel → utf8DecodeAux fuel (utf8Encode l) = some l := by
  induction l with
  | nil =>
    intro fuel h hf
    cases fuel <;> rfl
  | cons c l ih =>
    intro fuel h hf
    obtain ⟨f, rfl⟩ := Nat.exists_eq_succ_of_ne_zero (show fuel ≠ 0 by
      simp at hf; omega)
    have hc : c.toNat < 128 := h c (List.mem_cons_self _ _)
    have henc : utf8Encode (c :: l) = c.toNat :: utf8Encode l := by
      show utf8EncodeChar c ++ utf8Encode l = _
      rw [utf8EncodeChar_ascii c hc]
      rfl
    rw [henc, utf8DecodeAux_ascii_cons f c.toNat _ (by omega)]
    rw [ih f (fun x hx => h x (List.mem_cons_of_mem _ hx)) (by simp at hf ⊢; omega)]
    simp [Char.ofNat_toNat]

theorem utf8Decode_encode (l : List Char) (h : ∀ x ∈ l, x.toNat < 128) :
    utf8Decode (utf8Encode l) = some l := by
  unfold utf8Decode
  exact utf8DecodeAux_encode l _ h (le_of_eq (utf8_len l h).symm)

/-! Length prefix packing. -/

theorem leNat_packLE8 (n : Nat) (h : n < 18446744073709551616) :
    leNat (packLE8 n) = n := by
  simp only [packLE8, leNat]
  omega

/-! C3 and C10 assembly. -/

theorem encode_take8 (h : JVal) (body : List Nat) :
    (encodeContainer h body).take 8 = packLE8 (serializeJ h).length := by
  unfold encodeContainer
  rw [List.append_assoc, show (8 : Nat) = (packLE8 (serializeJ h).length).length
    from rfl, List.take_left]

theorem encode_drop8 (h : JVal) (body : List Nat) :
    (encodeContainer h body).drop 8 = utf8Encode (serializeJ h) ++ body := by
  unfold encodeContainer
  rw [List.append_assoc, show (8 : Nat) = (packLE8 (serializeJ h).length).length
    from rfl, List.drop_left]

theorem encode_length_ge (h : JVal) (body : List Nat) :
    ¬(encodeContainer h body).length < 8 := by
  unfold encodeContainer
  rw [List.append_assoc, List.length_append,
    show (packLE8 (serializeJ h).length).length = 8 from rfl]
  omega

/-- C3: decoding an encoded container recovers the header value exactly —
in particular a header with identical key and value content — and the very
body bytes, whenever the serialized header fits the 64-bit length prefix
that `struct.pack` can represent. -/
theorem decode_encode_roundtrip (h : JVal) (body : List Nat)
    (hlen : (serializeJ h).length < 18446744073709551616) :
    decodeContainer (encodeContainer h body) = Except.ok (h, body) := by
  have hascii := serializeJ_ascii h
  have hblen : (utf8Encode (serializeJ h)).length = (serializeJ h).length :=
    utf8_len _ hascii
  have e4 : (utf8Encode (serializeJ h) ++ body).take (serializeJ h).length =
      utf8Encode (serializeJ h) := by
    rw [← hblen, List.take_left]
  have e5 : (encodeContainer h body).drop (8 + (serializeJ h).length) = body := by
    rw [← List.drop_drop, encode_drop8, ← hblen, List.drop_left]
  unfold decodeContainer
  rw [if_neg (encode_length_ge h body)]
  rw [encode_take8, leNat_packLE8 _ hlen, encode_drop8]
  rw [e4, utf8Decode_encode _ hascii]
  simp only [jsonLoads_serialize, e5]

/-- Witness for C3 at a concrete container with a non-ASCII metadata value
and a two-byte body. -/
theorem decode_encode_roundtrip_witness :
    decodeContainer (encodeContainer (JVal.jobj (JObj.cons "__metadata__"
      (JVal.jobj (JObj.cons "modelspec.title" (JVal.jstr "Tê") JObj.nil))
      JObj.nil)) [7, 9]) =
    Except.ok (JVal.jobj (JObj.cons "__metadata__"
      (JVal.jobj (JObj.cons "modelspec.title" (JVal.jstr "Tê") JObj.nil))
      JObj.nil), [7, 9]) :=
  decode_encode_roundtrip _ [7, 9] (by decide)

/-- C10: the 8-byte little-endian prefix written by the encoder equals the
byte length of the UTF-8 text of the serialized header, because every
character the serializer emits is ASCII, so the character count that
Python packs equals the UTF-8 byte count even when metadata values contain
non-ASCII characters. -/
theorem length_prefix_byte_length (h : JVal) (body : List Nat)
    (hlen : (serializeJ h).length < 18446744073709551616) :
    leNat ((encodeContainer h body).take 8) = (utf8Encode (serializeJ h)).length ∧
    (utf8Encode (serializeJ h)).length = (serializeJ h).length := by
  have hblen : (utf8Encode (serializeJ h)).length = (serializeJ h).length :=
    utf8_len _ (serializeJ_ascii h)
  constructor
  · rw [encode_take8, leNat_packLE8 _ hlen, hblen]
  · exact hblen

/-- Witness for C10 at a concrete header with a non-ASCII metadata value. -/
theorem length_prefix_byte_length_witness :
    leNat ((encodeContainer (JVal.jobj (JObj.cons "modelspec.description"
        (JVal.jstr "café") JObj.nil)) [1]).take 8) =
      (utf8Encode (serializeJ (JVal.jobj (JObj.cons "modelspec.description"
        (JVal.jstr "café") JObj.nil)))).length ∧
    (utf8Encode (serializeJ (JVal.jobj (JObj.cons "modelspec.description"
        (JVal.jstr "café") JObj.nil)))).length =
      (serializeJ (JVal.jobj (JObj.cons "modelspec.description"
        (JVal.jstr "café") JObj.nil))).length :=
  length_prefix_byte_length _ [1] (by decide)

end ModelSpec
